import Mathlib

/-!
Verification development for the PigeonKeeper task orchestrator
(src/lib/digraph.js, src/lib/pigeonkeeper.js, the Vertex module and the
GenericService sample).

The JavaScript sources are shallowly embedded as executable Lean
definitions.  Mutable object state becomes explicit state passing;
JavaScript exceptions become `Option` (`none` = an exception was thrown
before the operation could complete); the `while` loop of the topological
sort is driven by a fuel parameter that is proved sufficient.
-/

namespace Pigeon

/-- The VALID_STATES of a vertex (digraph.js line 3, pigeonkeeper.js line 17). -/
inductive VState
  | NOT_READY
  | READY
  | IN_PROGRESS
  | SUCCESS
  | FAIL
  deriving DecidableEq, Repr

open VState

/--
The digraph of digraph.js.  The source keeps the edge set as two parallel
arrays `startVertexIdArray` / `endVertexIdArray` that are always pushed and
spliced together at the same index; they are fused here into one list of
(start, end) pairs.  `vertexIdArray` becomes `vertexIds`.  (The per-vertex
execution states live on the Vertex objects and are modelled as part of the
scheduler state `PK` below; `vertexStateArray` is written but never read by
the source.)
-/
structure Digraph where
  vertexIds : List String
  edges : List (String × String)
  deriving DecidableEq, Repr

/-- digraph.js `hasVertexId`: membership test on `vertexIdArray`. -/
def hasVertexId (g : Digraph) (vertexId : String) : Prop :=
  vertexId ∈ g.vertexIds

instance (g : Digraph) (v : String) : Decidable (hasVertexId g v) := by
  unfold hasVertexId; infer_instance

/-- digraph.js `addVertex` (lines 43-58): `none` models the thrown
"Duplicate Vertex ID" error; otherwise the id is pushed. -/
def addVertex (g : Digraph) (id : String) : Option Digraph :=
  if id ∈ g.vertexIds then none
  else some { g with vertexIds := g.vertexIds ++ [id] }

/-- digraph.js `addEdge` (lines 66-104): `none` models the thrown errors
(start/end vertex not found, self loop, duplicate edge); otherwise the
edge is pushed onto the parallel edge arrays. -/
def addEdge (g : Digraph) (s e : String) : Option Digraph :=
  if s ∉ g.vertexIds then none
  else if e ∉ g.vertexIds then none
  else if s = e then none
  else if (s, e) ∈ g.edges then none
  else some { g with edges := g.edges ++ [(s, e)] }

/--
digraph.js `removeVertex` (lines 111-136).  Its very first statement
(line 113) evaluates `vertexIdArray.index(vertexId)`: JavaScript arrays
have no `index` method (`indexOf` exists, `index` does not), so this is a
call of `undefined` and throws a `TypeError` unconditionally, before any
vertex or edge is touched.  The faithful embedding therefore throws
(`none`) on every input.
-/
def removeVertex (_g : Digraph) (_vertexId : String) : Option Digraph :=
  -- line 113: `vertexIdArray.index(vertexId)` -> TypeError, always
  none

/--
The body of `removeVertex` that line 113 makes unreachable
(digraph.js lines 119-134): splice the vertex out of the vertex arrays and
splice out every edge whose start or end is the vertex.  This is the
behaviour the surrounding code and documentation intend.
-/
def removeVertexBody (g : Digraph) (vertexId : String) : Digraph :=
  { vertexIds := g.vertexIds.filter (fun v => v ≠ vertexId),
    edges := g.edges.filter (fun p => p.1 ≠ vertexId ∧ p.2 ≠ vertexId) }

/-- digraph.js `indegree` (lines 264-277): count of edges ending at the
vertex. -/
def indegree (E : List (String × String)) (vertexId : String) : Nat :=
  (E.filter (fun p => p.2 = vertexId)).length

/-- digraph.js `outdegree` (lines 285-298): count of edges starting at the
vertex. -/
def outdegree (E : List (String × String)) (vertexId : String) : Nat :=
  (E.filter (fun p => p.1 = vertexId)).length

/-- digraph.js `getChildVertexIds` (lines 198-212): the ends of all edges
starting at the parent, in edge order. -/
def childIds (E : List (String × String)) (parentVertexId : String) : List String :=
  (E.filter (fun p => p.1 = parentVertexId)).map (fun p => p.2)

/-- digraph.js `getParentVertexIds` (lines 242-256): the starts of all
edges ending at the child, in edge order. -/
def parentIds (E : List (String × String)) (childVertexId : String) : List String :=
  (E.filter (fun p => p.2 = childVertexId)).map (fun p => p.1)

/-- digraph.js `getVerticesWithIndegree0` (lines 305-319): the vertices, in
`vertexArray` order, that appear as the end of no edge. -/
def roots (g : Digraph) : List String :=
  g.vertexIds.filter (fun v => v ∉ g.edges.map (fun p => p.2))

/-- The edge-splice of digraph.js `removeEdge` (lines 144-168): locate the
first index holding the pair and splice it out of both parallel arrays. -/
def eraseEdge (s e : String) : List (String × String) → List (String × String)
  | [] => []
  | p :: rest => if p = (s, e) then rest else p :: eraseEdge s e rest

/-- digraph.js `removeEdge`: `none` models the thrown "Edge Doesn't Exist"
error. -/
def removeEdge (g : Digraph) (s e : String) : Option Digraph :=
  if (s, e) ∈ g.edges then some { g with edges := eraseEdge s e g.edges }
  else none

/--
The inner `for` loop of `topologicalSort` (digraph.js lines 403-412): for
each child `m` of the popped vertex `n` (the child list was computed before
the loop), remove the edge (n, m) — `removeEdge` throws (`none`) if it is
absent — and push `m` onto the working stack `S` if its indegree has
become 0.  `S` is represented head-first: the JavaScript `S.pop()` takes
the last element, so pushes are conses here.
-/
def processChildren (n : String) :
    List String → List (String × String) → List String →
    Option (List (String × String) × List String)
  | [], E, S => some (E, S)
  | m :: rest, E, S =>
      if (n, m) ∈ E then
        let E' := eraseEdge n m E
        processChildren n rest E' (if indegree E' m = 0 then m :: S else S)
      else none

/--
The `while` loop of `topologicalSort` (digraph.js lines 397-413), with the
edge set and the output list `L` passed explicitly and a fuel parameter
standing in for the `while`; `kahnFuelBound` below is proved sufficient, so
the fuel-exhaustion `none` is never reached from `topologicalSort`.
-/
def kahnLoop : Nat → List String → List (String × String) → List String →
    Option (List String × List (String × String))
  | _, [], E, L => some (L, E)
  | 0, _ :: _, _, _ => none
  | fuel + 1, n :: S', E, L =>
      match processChildren n (childIds E n) E S' with
      | none => none
      | some (E', S'') => kahnLoop fuel S'' E' (L ++ [n])

/-- Fuel that always suffices for `kahnLoop` (proved in
`kahnLoop_isSome`). -/
def kahnFuelBound (E : List (String × String)) (S : List String) : Nat :=
  2 * E.length + S.length

/--
digraph.js `topologicalSort` (lines 385-424): snapshot the edge arrays
(`getEdgeInfo`, line 392), run Kahn's algorithm destroying the edge set,
then restore the snapshot (`setEdgeInfo`) and return `[]` if edges remain
(a cycle) or the accumulated order `L` otherwise.  The returned `Digraph`
is the post-call graph object; the result list holds the vertices of `L`
(the source returns the Vertex objects, which the scheduler immediately
maps to their ids with `vertexIdsFromArray`).
-/
def topologicalSort (g : Digraph) : Option (List String × Digraph) :=
  let edgeInfo := g.edges
  let S0 := (roots g).reverse
  match kahnLoop (kahnFuelBound g.edges S0) S0 g.edges [] with
  | none => none
  | some (L, Efinal) =>
      if Efinal.length > 0 then some ([], { g with edges := edgeInfo })
      else some (L, { g with edges := edgeInfo })

/-- Well-formedness maintained by graph construction through
`addVertex` / `addEdge`: distinct vertex ids, distinct edges, and every
edge joins two distinct existing vertices. -/
def WF (g : Digraph) : Prop :=
  g.vertexIds.Nodup ∧ g.edges.Nodup ∧
    ∀ p ∈ g.edges, p.1 ∈ g.vertexIds ∧ p.2 ∈ g.vertexIds ∧ p.1 ≠ p.2

instance (g : Digraph) : Decidable (WF g) := by
  unfold WF; infer_instance

/-- The edge relation of an edge list. -/
def edgeRel (E : List (String × String)) (a b : String) : Prop := (a, b) ∈ E

/-- A directed graph contains a cycle: some vertex reaches itself by a
nonempty edge path. -/
def hasCycle (E : List (String × String)) : Prop :=
  ∃ v, Relation.TransGen (edgeRel E) v v

/-! ## The scheduler (pigeonkeeper.js and the Vertex module)

The per-vertex execution states live on the Vertex objects of
`vertexArray`; they are modelled as a list `states : List VState` parallel
to `vertexIds`.  Reading the state of vertex `v`
(`graph.getVertex(v).state`) is `stateAt ids states v`; writing it
(`graph.getVertex(v).setState(s)`) is `setKey ids states v s`.
`Vertex.setState` additionally emits the per-vertex start signal when the
new state is IN_PROGRESS and the scheduler is running; the signal invokes
the bound task start function and changes no scheduler state, so it has no
state-level effect here.
-/

/-- Position of `v` in the vertex-id array (`vertexIdArray.indexOf`); the
length of the list when absent. -/
def idxOf (v : String) : List String → Nat
  | [] => 0
  | a :: rest => if a = v then 0 else idxOf v rest + 1

/-- Element of a state list at a position, NOT_READY past the end (reads
past the end can only happen where the source would have thrown first). -/
def nthD : List VState → Nat → VState
  | [], _ => NOT_READY
  | s :: _, 0 => s
  | _ :: rest, n + 1 => nthD rest n

/-- Write a state list at a position (no-op past the end, where the source
would have thrown first). -/
def setNth : List VState → Nat → VState → List VState
  | [], _, _ => []
  | _ :: rest, 0, s => s :: rest
  | a :: rest, n + 1, s => a :: setNth rest n s

/-- `graph.getVertex(v).state`. -/
def stateAt (ids : List String) (sts : List VState) (v : String) : VState :=
  nthD sts (idxOf v ids)

/-- `graph.getVertex(v).setState(s)` (state-level effect only). -/
def setKey (ids : List String) (sts : List VState) (v : String) (s : VState) :
    List VState :=
  setNth sts (idxOf v ids) s

/--
The new state computed for one vertex by the first pass of `updateStates`
(pigeonkeeper.js lines 427-469), reading only the pre-call snapshot: a
vertex that is not NOT_READY keeps its state; a NOT_READY vertex of
indegree 0 becomes READY; otherwise all parents SUCCESS gives READY, some
parent FAIL gives FAIL, else NOT_READY.
-/
def computeNewState (E : List (String × String)) (ids : List String)
    (sts : List VState) (v : String) : VState :=
  if stateAt ids sts v = NOT_READY then
    if indegree E v = 0 then READY
    else
      let parents := parentIds E v
      if ∀ p ∈ parents, stateAt ids sts p = SUCCESS then READY
      else if ∃ p ∈ parents, stateAt ids sts p = FAIL then FAIL
      else NOT_READY
  else stateAt ids sts v

/--
pigeonkeeper.js `updateStates` (lines 421-477): first pass computes
`newStates[i]` for `topologicalSortOrder[i]`, `i` below `vertexCount()`,
from the unmodified states; second pass writes them back through
`Vertex.setState`.  The loop reads exactly the first `vertexCount()`
entries of the topological order (`topo.take ids.length`; the source
throws inside `getVertex` if the order is shorter, which the theorems
exclude by hypothesis).
-/
def updateStates (E : List (String × String)) (ids topo : List String)
    (sts : List VState) : List VState :=
  let order := topo.take ids.length
  let newStates := order.map (fun v => computeNewState E ids sts v)
  (order.zip newStates).foldl (fun acc p => setKey ids acc p.1 p.2) sts

/--
The propagation rule exactly as the specification words it (§4.3.2),
defined independently of `updateStates` for the refinement comparison:
a vertex whose state is not NOT_READY keeps its state; a NOT_READY vertex
of indegree 0 becomes READY; a NOT_READY vertex with parents becomes READY
if every parent is SUCCESS, else FAIL if some parent is FAIL, else stays
NOT_READY — all read from the single pre-call snapshot `sts`.
-/
def specPropagationRule (E : List (String × String)) (ids : List String)
    (sts : List VState) (v : String) : VState :=
  if stateAt ids sts v ≠ NOT_READY then stateAt ids sts v
  else if indegree E v = 0 then READY
  else if ∀ p ∈ parentIds E v, stateAt ids sts p = SUCCESS then READY
  else if ∃ p ∈ parentIds E v, stateAt ids sts p = FAIL then FAIL
  else NOT_READY

/-- The error argument handed to the terminal callback (`finalCallback`):
`ok` is the `null` of the all-success path; the two error objects carry
`{name, message}` as in the source. -/
inductive CbArg
  | ok
  | failedStates (ids : List String)
  | stateFailed (id : String)
  deriving DecidableEq, Repr

/--
Scheduler state of pigeonkeeper.js.  `callbackTrace` instruments the
invocations of the user-supplied `finalCallback` during the current
campaign (reset at `start`), so that delivery counts and payloads are
observable; `terminalFired` is `finalCallbackExecuted`, `inFlight` is
`numberOfRunningProcesses`, `maxConc` is `maxNumberOfRunningProcesses`,
`running` is `isCurrentlyRunning`, `topo` is `topologicalSortOrder`.
-/
structure PK where
  vertexIds : List String
  edges : List (String × String)
  states : List VState
  topo : List String
  running : Bool
  quitOnFailure : Bool
  maxConc : Int
  inFlight : Int
  terminalFired : Bool
  callbackTrace : List CbArg
  deriving DecidableEq, Repr

/-- `allStatesSuccessful` accumulated over all vertices
(pigeonkeeper.js lines 146-159 / 242-255). -/
def allStatesSuccessful (pk : PK) : Prop :=
  ∀ v ∈ pk.vertexIds, stateAt pk.vertexIds pk.states v = SUCCESS

/-- `someStateFailed` accumulated over all vertices. -/
def someStateFailed (pk : PK) : Prop :=
  ∃ v ∈ pk.vertexIds, stateAt pk.vertexIds pk.states v = FAIL

/-- `allStatesFinal` accumulated over all vertices. -/
def allStatesFinal (pk : PK) : Prop :=
  ∀ v ∈ pk.vertexIds, stateAt pk.vertexIds pk.states v = SUCCESS ∨
    stateAt pk.vertexIds pk.states v = FAIL

instance (pk : PK) : Decidable (allStatesSuccessful pk) := by
  unfold allStatesSuccessful; infer_instance

instance (pk : PK) : Decidable (someStateFailed pk) := by
  unfold someStateFailed; infer_instance

instance (pk : PK) : Decidable (allStatesFinal pk) := by
  unfold allStatesFinal; infer_instance

/-- The FAIL bucket of `overallState()` (pigeonkeeper.js lines 309-349):
the ids whose vertex state is FAIL, in vertex-array order.  This is the
payload of every "Failed States" error. -/
def failBucket (pk : PK) : List String :=
  pk.vertexIds.filter (fun v => stateAt pk.vertexIds pk.states v = FAIL)

/-- The guarded invocation sites of `finalCallback`: check
`finalCallbackExecuted`, set it, call the callback. -/
def fireFinalCallback (pk : PK) (e : CbArg) : PK :=
  if pk.terminalFired then pk
  else { pk with terminalFired := true, callbackTrace := pk.callbackTrace ++ [e] }

/-- `updateStates` acting on the scheduler state. -/
def pkUpdateStates (pk : PK) : PK :=
  { pk with states := updateStates pk.edges pk.vertexIds pk.topo pk.states }

/--
pigeonkeeper.js `startReadyProcesses` (lines 484-507): walk the vertices
in array order; each READY vertex is moved to IN_PROGRESS (which fires its
start signal) and `numberOfRunningProcesses` incremented, provided the
count is below `maxNumberOfRunningProcesses` when that cap is positive;
a non-positive cap never limits.
-/
def pkStartReady (pk : PK) : PK :=
  let r := pk.vertexIds.foldl
    (fun (acc : List VState × Int) v =>
      if stateAt pk.vertexIds acc.1 v = READY then
        if pk.maxConc > 0 ∧ acc.2 < pk.maxConc then
          (setKey pk.vertexIds acc.1 v IN_PROGRESS, acc.2 + 1)
        else if pk.maxConc ≤ 0 then
          (setKey pk.vertexIds acc.1 v IN_PROGRESS, acc.2 + 1)
        else acc
      else acc)
    (pk.states, pk.inFlight)
  { pk with states := r.1, inFlight := r.2 }

/--
PigeonKeeper `setState` (pigeonkeeper.js lines 129-302), the commit point
for a vertex state transition.  `none` models the thrown "Vertex Not
Found" error (the "Invalid State" throw cannot arise: `VState` only has
the valid states).  The flags `allS` / `someF` / `allF` are the local
variables of the source, computed once after the first `updateStates` of
the branch; in particular the FAIL branch's final check re-uses the flags
computed before its second `updateStates`, exactly as the source does.
-/
def setState (pk : PK) (vertexId : String) (newState : VState) : Option PK :=
  if vertexId ∈ pk.vertexIds then
    -- Vertex.setState: write the state (the start signal emitted for
    -- IN_PROGRESS while running drives the task, not the scheduler state)
    let pk1 : PK :=
      { pk with states := setKey pk.vertexIds pk.states vertexId newState }
    if newState = SUCCESS then
      let pk2 := pkUpdateStates { pk1 with inFlight := pk1.inFlight - 1 }
      let allS := allStatesSuccessful pk2
      let someF := someStateFailed pk2
      let allF := allStatesFinal pk2
      some (if allF then
              let pk3 := { pk2 with running := false }
              if allS then fireFinalCallback pk3 CbArg.ok
              else fireFinalCallback pk3 (CbArg.failedStates (failBucket pk3))
            else if allS then fireFinalCallback pk2 CbArg.ok
            else if someF then
              if pk2.quitOnFailure then
                let pk3 := { pk2 with running := false }
                fireFinalCallback pk3 (CbArg.failedStates (failBucket pk3))
              else pkUpdateStates pk2
            else pkStartReady pk2)
    else if newState = FAIL then
      let pk2 := pkUpdateStates { pk1 with inFlight := pk1.inFlight - 1 }
      let someF := someStateFailed pk2
      let allF := allStatesFinal pk2
      some (if pk2.quitOnFailure then
              fireFinalCallback { pk2 with running := false }
                (CbArg.stateFailed vertexId)
            else
              let pk3 := pkUpdateStates pk2
              if allF ∧ someF then
                fireFinalCallback pk3 (CbArg.failedStates (failBucket pk3))
              else pk3)
    else some pk1
  else none

/--
pigeonkeeper.js `start` (lines 110-121) for a scheduler whose graph is
`g`: clear `finalCallbackExecuted`, compute the topological order, zero
the running count, set running, put every vertex into NOT_READY
(`initializeStates`, lines 404-414), propagate, dispatch.  The
instrumentation trace of terminal-callback invocations starts empty for
the new campaign.
-/
def startPK (quitOnFailure : Bool) (maxConc : Int) (g : Digraph) : PK :=
  let topo := ((topologicalSort g).map (fun r => r.1)).getD []
  pkStartReady (pkUpdateStates
    { vertexIds := g.vertexIds
      edges := g.edges
      states := List.replicate g.vertexIds.length NOT_READY
      topo := topo
      running := true
      quitOnFailure := quitOnFailure
      maxConc := maxConc
      inFlight := 0
      terminalFired := false
      callbackTrace := [] })

/-- Deliver a list of `setState` calls in order; `none` if any of them
throws. -/
def runSetStates (pk : PK) : List (String × VState) → Option PK
  | [] => some pk
  | e :: es => (setState pk e.1 e.2).bind (fun pk' => runSetStates pk' es)

/--
Deliver a list of task-completion events.  A completion event carries the
terminal outcome of a started task: it is a SUCCESS or FAIL transition for
a vertex that is currently IN_PROGRESS (tasks are one-shot subscribed, so
a task reports at most once, and only after dispatch moved its vertex to
IN_PROGRESS).  `none` if an event violates that discipline.
-/
def runCompletions (pk : PK) : List (String × VState) → Option PK
  | [] => some pk
  | e :: es =>
      if (e.2 = SUCCESS ∨ e.2 = FAIL) ∧
          stateAt pk.vertexIds pk.states e.1 = IN_PROGRESS then
        (setState pk e.1 e.2).bind (fun pk' => runCompletions pk' es)
      else none

/--
The vertex module's `processSuccessful` handler
(src/unnamed/part_000 lines 79-83):
`function (data) { this.data = data; self.parent.parent.setState(id, "SUCCESS"); }`.
`this_data` is the `data` property of whatever object the handler is
invoked on — `this` is late-bound in JavaScript; `selfId` is the vertex id
captured by the closure.  It returns the updated `this` object's data and
the request made to the scheduler.
-/
inductive SchedReq
  | reqSetState (id : String) (s : VState)
  deriving DecidableEq, Repr

/-- The data payloads of the two heap objects wired together by
`PigeonKeeper.addVertex`: the Vertex and its service (the task object). -/
structure SuccessWiring where
  vertexData : Nat
  serviceData : Nat
  deriving DecidableEq, Repr

/-- `processSuccessful` as a raw JavaScript function: it writes `data`
into `this.data` of its receiver and asks the scheduler (reached through
the closure-captured `self`) to set the closure-captured vertex id to
SUCCESS. -/
def processSuccessful (_thisData : Nat) (selfId : String) (data : Nat) :
    Nat × SchedReq :=
  (data, SchedReq.reqSetState selfId SUCCESS)

/--
Delivery of a task's "success" signal under the wiring of
`PigeonKeeper.addVertex` (pigeonkeeper.js line 90:
`service.once("success", newVertex.processSuccessful)`).  Node's
`EventEmitter` invokes a listener with `this` bound to the emitter, i.e.
the **service**, so the `this.data = data` of `processSuccessful` updates
the service object's `data` property; only the closure-captured `self`
still refers to the vertex.
-/
def emitSuccess (w : SuccessWiring) (selfId : String) (data : Nat) :
    SuccessWiring × SchedReq :=
  let r := processSuccessful w.serviceData selfId data
  ({ w with serviceData := r.1 }, r.2)

/-! ## Invariants used by the verification -/

/--
Loop invariant of Kahn's algorithm over the graph `g`: `E` is the not yet
removed part of the edge set, `S` the working stack, `L` the output so
far.  The clauses: `E` is a sub-multiset of the original edges; stack and
output hold existing vertices whose remaining indegree is zero; output
vertices have all out-edges removed; every vertex of remaining indegree
zero has been reached; `L ++ S` has no duplicates; every original edge
whose end is already placed respects the output order; every original
edge is still present or has its start already placed.
-/
structure KahnInv (g : Digraph) (S : List String) (E : List (String × String))
    (L : List String) : Prop where
  sub : E.Sublist g.edges
  sMem : ∀ v ∈ S, v ∈ g.vertexIds
  sDeg : ∀ v ∈ S, indegree E v = 0
  lMem : ∀ v ∈ L, v ∈ g.vertexIds
  lDeg : ∀ v ∈ L, indegree E v = 0
  lOut : ∀ v ∈ L, ∀ p ∈ E, p.1 ≠ v
  comp : ∀ v ∈ g.vertexIds, indegree E v = 0 → v ∈ S ∨ v ∈ L
  nd : (L ++ S).Nodup
  ordL : ∀ p ∈ g.edges, p.2 ∈ L → [p.1, p.2].Sublist L
  remL : ∀ p ∈ g.edges, p ∈ E ∨ p.1 ∈ L

/-- The at-most-once bookkeeping of a campaign: a clear flag means no
callback has run yet, and at most one callback has run in any case. -/
def TraceInv (pk : PK) : Prop :=
  (pk.terminalFired = false → pk.callbackTrace = []) ∧
    pk.callbackTrace.length ≤ 1

/-- The number of IN_PROGRESS vertices in a state list. -/
def countIP (sts : List VState) : Nat :=
  sts.countP (fun s => s = VState.IN_PROGRESS)

/--
Inventory invariant of a campaign with concurrency cap `mc`: the graph and
topological order are well-formed, `numberOfRunningProcesses` equals the
number of IN_PROGRESS vertices, and it respects a positive cap.
-/
structure SchedInv (mc : Int) (pk : PK) : Prop where
  ndIds : pk.vertexIds.Nodup
  ndT : pk.topo.Nodup
  subT : ∀ v ∈ pk.topo, v ∈ pk.vertexIds
  lenT : pk.topo.length = pk.vertexIds.length
  lenS : pk.states.length = pk.vertexIds.length
  count : pk.inFlight = (countIP pk.states : Int)
  cap : 0 < pk.maxConc → pk.inFlight ≤ pk.maxConc
  mcv : pk.maxConc = mc

/-! ## Lemmas about the edge-erasing inner loop of the topological sort -/

lemma childIds_cons (p : String × String) (E : List (String × String)) (n : String) :
    childIds (p :: E) n =
      if p.1 = n then p.2 :: childIds E n else childIds E n := by
  by_cases hp : p.1 = n <;> simp [childIds, hp]

lemma length_eraseEdge {E : List (String × String)} {s e : String}
    (h : (s, e) ∈ E) : (eraseEdge s e E).length + 1 = E.length := by
  induction E with
  | nil => cases h
  | cons p E' ih =>
    by_cases hp : p = (s, e)
    · subst hp; simp [eraseEdge]
    · rcases List.mem_cons.mp h with h1 | h2
      · exact absurd h1.symm hp
      · have he : eraseEdge s e (p :: E') = p :: eraseEdge s e E' := by
          simp [eraseEdge, hp]
        have := ih h2
        rw [he]
        simp only [List.length_cons]
        omega

lemma childIds_cons_decomp {E : List (String × String)} {n m : String}
    {rest : List String} (h : childIds E n = m :: rest) :
    ∃ E1 E2, E = E1 ++ (n, m) :: E2 ∧ (∀ p ∈ E1, p.1 ≠ n) ∧
      eraseEdge n m E = E1 ++ E2 ∧ childIds (E1 ++ E2) n = rest := by
  induction E with
  | nil => simp [childIds] at h
  | cons p E' ih =>
    rw [childIds_cons] at h
    by_cases hp : p.1 = n
    · rw [if_pos hp] at h
      obtain ⟨hm, hrest⟩ : p.2 = m ∧ childIds E' n = rest := by
        constructor
        · exact (List.cons.injEq _ _ _ _ ▸ h).1
        · exact (List.cons.injEq _ _ _ _ ▸ h).2
      refine ⟨[], E', ?_, by simp, ?_, by simpa [childIds] using hrest⟩
      · have hpe : p = (n, m) := by
          cases p with
          | mk a b => simp at hp hm; simp [hp, hm]
        simp [hpe]
      · have hpe : p = (n, m) := by
          cases p with
          | mk a b => simp at hp hm; simp [hp, hm]
        simp [hpe, eraseEdge]
    · rw [if_neg hp] at h
      obtain ⟨E1, E2, hE, hE1, hErase, hRest⟩ := ih h
      refine ⟨p :: E1, E2, by simp [hE], ?_, ?_, ?_⟩
      · intro q hq
        rcases List.mem_cons.mp hq with h1 | h1
        · subst h1; exact hp
        · exact hE1 q h1
      · have hpne : p ≠ (n, m) := by
          intro hc; apply hp; rw [hc]
        simp only [eraseEdge, if_neg hpne]
        rw [hErase, List.cons_append]
      · rw [List.cons_append, childIds_cons, if_neg hp]
        exact hRest

lemma processChildren_measure (n : String) :
    ∀ (cs : List String) (E : List (String × String)) (S : List String)
      (E' : List (String × String)) (S'' : List String),
      processChildren n cs E S = some (E', S'') →
      2 * E'.length + S''.length + cs.length ≤ 2 * E.length + S.length := by
  intro cs
  induction cs with
  | nil =>
    intro E S E' S'' h
    simp [processChildren] at h
    obtain ⟨h1, h2⟩ := h
    subst h1; subst h2; simp
  | cons m rest ih =>
    intro E S E' S'' h
    simp only [processChildren] at h
    split at h
    · rename_i hmem
      have hlen := length_eraseEdge hmem
      have := ih _ _ _ _ h
      by_cases hdeg : indegree (eraseEdge n m E) m = 0 <;>
        simp [hdeg] at this <;> simp [List.length_cons] <;> omega
    · cases h

lemma processChildren_childIds_isSome (n : String) :
    ∀ (k : Nat) (E : List (String × String)) (S : List String),
      E.length ≤ k → (processChildren n (childIds E n) E S).isSome := by
  intro k
  induction k with
  | zero =>
    intro E S hk
    have : E = [] := List.length_eq_zero.mp (Nat.le_zero.mp hk)
    subst this
    simp [childIds, processChildren]
  | succ k ih =>
    intro E S hk
    cases hch : childIds E n with
    | nil => simp [hch, processChildren]
    | cons m rest =>
      obtain ⟨E1, E2, hE, _, hErase, hRest⟩ := childIds_cons_decomp hch
      have hmem : (n, m) ∈ E := by rw [hE]; simp
      simp only [processChildren, if_pos hmem, hErase]
      rw [← hRest] at *
      have hlen : (E1 ++ E2).length ≤ k := by
        have := length_eraseEdge hmem
        rw [hErase] at this
        omega
      rw [hRest]
      exact ih (E1 ++ E2) _ hlen

lemma kahnLoop_isSome :
    ∀ (fuel : Nat) (S : List String) (E : List (String × String)) (L : List String),
      2 * E.length + S.length ≤ fuel → (kahnLoop fuel S E L).isSome := by
  intro fuel
  induction fuel with
  | zero =>
    intro S E L h
    cases S with
    | nil => simp [kahnLoop]
    | cons n S' => simp at h
  | succ fuel ih =>
    intro S E L h
    cases S with
    | nil => simp [kahnLoop]
    | cons n S' =>
      have hsome := processChildren_childIds_isSome n E.length E S' (Nat.le_refl _)
      obtain ⟨⟨E', S''⟩, hps⟩ := Option.isSome_iff_exists.mp hsome
      simp only [kahnLoop, hps]
      apply ih
      have := processChildren_measure n _ _ _ _ _ hps
      simp only [List.length_cons] at h
      omega

lemma indegree_nil (v : String) : indegree [] v = 0 := rfl

lemma indegree_cons (p : String × String) (E : List (String × String)) (v : String) :
    indegree (p :: E) v = (if p.2 = v then 1 else 0) + indegree E v := by
  by_cases h : p.2 = v <;> simp [indegree, h, Nat.add_comm]

lemma indegree_eq_zero_iff {E : List (String × String)} {v : String} :
    indegree E v = 0 ↔ ∀ p ∈ E, p.2 ≠ v := by
  simp [indegree, List.length_eq_zero, List.filter_eq_nil_iff]

lemma indegree_pos_of_mem {E : List (String × String)} {a v : String}
    (h : (a, v) ∈ E) : 0 < indegree E v := by
  rcases Nat.eq_zero_or_pos (indegree E v) with h0 | h1
  · exact absurd rfl (indegree_eq_zero_iff.mp h0 (a, v) h)
  · exact h1

lemma exists_of_indegree_pos {E : List (String × String)} {v : String}
    (h : 0 < indegree E v) : ∃ p ∈ E, p.2 = v := by
  by_contra hc
  push_neg at hc
  rw [indegree_eq_zero_iff.mpr hc] at h
  exact Nat.lt_irrefl 0 h

lemma indegree_le_of_sublist {E₁ E₂ : List (String × String)}
    (h : E₁.Sublist E₂) (v : String) : indegree E₁ v ≤ indegree E₂ v :=
  (h.filter _).length_le

lemma mem_childIds_iff {E : List (String × String)} {n m : String} :
    m ∈ childIds E n ↔ (n, m) ∈ E := by
  constructor
  · intro h
    simp only [childIds, List.mem_map, List.mem_filter] at h
    obtain ⟨p, ⟨hp, hp1⟩, hp2⟩ := h
    simp only [decide_eq_true_eq] at hp1
    have : p = (n, m) := by
      cases p with
      | mk a b =>
        simp only at hp1 hp2
        rw [hp1, hp2]
    rwa [this] at hp
  · intro h
    simp only [childIds, List.mem_map, List.mem_filter]
    exact ⟨(n, m), ⟨h, by simp⟩, rfl⟩

lemma childIds_nodup {E : List (String × String)} (h : E.Nodup) (n : String) :
    (childIds E n).Nodup := by
  have hf : (E.filter (fun p => p.1 = n)).Nodup := h.filter _
  refine hf.map_on ?_
  intro p hp q hq hpq
  have hp1 : p.1 = n := by
    have := (List.mem_filter.mp hp).2
    simpa using this
  have hq1 : q.1 = n := by
    have := (List.mem_filter.mp hq).2
    simpa using this
  cases p with
  | mk a b =>
    cases q with
    | mk c d =>
      simp only at hp1 hq1 hpq
      rw [hp1, hq1, hpq]

lemma mem_roots_iff {g : Digraph} {v : String} :
    v ∈ roots g ↔ v ∈ g.vertexIds ∧ indegree g.edges v = 0 := by
  simp only [roots, List.mem_filter, decide_eq_true_eq, indegree_eq_zero_iff,
    List.mem_map]
  constructor
  · rintro ⟨h1, h2⟩
    refine ⟨h1, fun p hp hpv => h2 ⟨p, hp, hpv⟩⟩
  · rintro ⟨h1, h2⟩
    refine ⟨h1, fun ⟨p, hp, hpv⟩ => h2 p hp hpv⟩

lemma indegree_filter_of_not_mem {E : List (String × String)} {n m : String}
    (h : (n, m) ∉ E) :
    indegree (E.filter (fun p => p.1 ≠ n)) m = indegree E m := by
  induction E with
  | nil => rfl
  | cons p E' ih =>
    have hp' : (n, m) ∉ E' := fun hc => h (List.mem_cons_of_mem _ hc)
    by_cases h1 : p.1 = n
    · have h2 : p.2 ≠ m := by
        intro hc
        apply h
        have : p = (n, m) := by
          cases p with
          | mk a b => simp only at h1 hc; rw [h1, hc]
        rw [← this]
        exact List.mem_cons_self _ _
      rw [List.filter_cons_of_neg (by simp [h1]), indegree_cons, if_neg h2,
        Nat.zero_add]
      exact ih hp'
    · rw [List.filter_cons_of_pos (by simp [h1]), indegree_cons, indegree_cons,
        ih hp']

lemma filter_ne_eraseEdge {E1 E2 : List (String × String)} {n m : String} :
    (E1 ++ (n, m) :: E2).filter (fun p => p.1 ≠ n) =
      (E1 ++ E2).filter (fun p => p.1 ≠ n) := by
  rw [List.filter_append, List.filter_append,
    List.filter_cons_of_neg (by simp)]

lemma not_mem_of_nodup_middle {E1 E2 : List (String × String)}
    {x : String × String} (h : (E1 ++ x :: E2).Nodup) : x ∉ E1 ++ E2 := by
  intro hc
  rcases List.mem_append.mp hc with h1 | h2
  · have := List.disjoint_of_nodup_append h
    exact this h1 (List.mem_cons_self _ _)
  · have := (List.nodup_append.mp h).2.1
    exact (List.nodup_cons.mp this).1 h2

/-- Over a duplicate-free edge set, the inner child loop removes exactly
the out-edges of `n` and pushes exactly the children whose indegree in the
resulting edge set is zero, most recent push first. -/
lemma processChildren_spec (n : String) :
    ∀ (k : Nat) (E : List (String × String)) (S : List String),
      E.length ≤ k → E.Nodup →
      processChildren n (childIds E n) E S =
        some (E.filter (fun p => p.1 ≠ n),
          ((childIds E n).filter
            (fun m => indegree (E.filter (fun p => p.1 ≠ n)) m = 0)).reverse
            ++ S) := by
  intro k
  induction k with
  | zero =>
    intro E S hk _
    have : E = [] := List.length_eq_zero.mp (Nat.le_zero.mp hk)
    subst this
    simp [childIds, processChildren]
  | succ k ih =>
    intro E S hk hnd
    cases hch : childIds E n with
    | nil =>
      have hfilter : E.filter (fun p => p.1 ≠ n) = E := by
        refine List.filter_eq_self.mpr ?_
        intro p hp
        simp only [decide_eq_true_eq]
        intro hc
        have : p.2 ∈ childIds E n := mem_childIds_iff.mpr (by
          have : p = (n, p.2) := by
            cases p with
            | mk a b => simp only at hc ⊢; rw [hc]
          rwa [this] at hp)
        rw [hch] at this
        cases this
      show some (E, S) = _
      rw [hfilter]
      simp only [List.filter_nil, List.reverse_nil, List.nil_append]
    | cons m rest =>
      obtain ⟨E1, E2, hE, _, hErase, hRest⟩ := childIds_cons_decomp hch
      have hmem : (n, m) ∈ E := by rw [hE]; simp
      have hnotmem : (n, m) ∉ E1 ++ E2 := by
        rw [hE] at hnd
        exact not_mem_of_nodup_middle hnd
      have hnd' : (E1 ++ E2).Nodup := by
        rw [hE] at hnd
        exact ((List.sublist_cons_self _ _).append_left E1).nodup hnd
      have hlen' : (E1 ++ E2).length ≤ k := by
        have := length_eraseEdge hmem
        rw [hErase] at this
        omega
      have hfeq : (E1 ++ E2).filter (fun p => p.1 ≠ n) =
          E.filter (fun p => p.1 ≠ n) := by
        rw [hE]
        exact filter_ne_eraseEdge.symm
      have hdeg : indegree (E1 ++ E2) m =
          indegree (E.filter (fun p => p.1 ≠ n)) m := by
        rw [← hfeq, indegree_filter_of_not_mem hnotmem]
      have hrec := ih (E1 ++ E2)
        (if indegree (E1 ++ E2) m = 0 then m :: S else S) hlen' hnd'
      have hstep : processChildren n (m :: rest) E S =
          processChildren n rest (E1 ++ E2)
            (if indegree (E1 ++ E2) m = 0 then m :: S else S) := by
        show (if (n, m) ∈ E then
            processChildren n rest (eraseEdge n m E)
              (if indegree (eraseEdge n m E) m = 0 then m :: S else S)
          else none) = _
        rw [if_pos hmem, hErase]
      rw [hstep, ← hRest, hrec, hfeq, hRest]
      by_cases hm0 : indegree (E.filter (fun p => p.1 ≠ n)) m = 0
      · rw [if_pos (by rw [hdeg]; exact hm0)]
        rw [List.filter_cons_of_pos (by simpa using hm0), List.reverse_cons,
          List.append_assoc]
        rfl
      · rw [if_neg (by rw [hdeg]; exact hm0)]
        rw [List.filter_cons_of_neg (by simpa using hm0)]

lemma kahnInv_init {g : Digraph} (hwf : WF g) :
    KahnInv g ((roots g).reverse) g.edges [] := by
  refine ⟨List.Sublist.refl _, ?_, ?_, ?_, ?_, ?_, ?_, ?_, ?_, ?_⟩
  · intro v hv
    exact (mem_roots_iff.mp (List.mem_reverse.mp hv)).1
  · intro v hv
    exact (mem_roots_iff.mp (List.mem_reverse.mp hv)).2
  · intro v hv; cases hv
  · intro v hv; cases hv
  · intro v hv; cases hv
  · intro v hv hdeg
    exact Or.inl (List.mem_reverse.mpr (mem_roots_iff.mpr ⟨hv, hdeg⟩))
  · simp only [List.nil_append, List.nodup_reverse]
    exact hwf.1.filter _
  · intro p _ hp2; cases hp2
  · intro p hp; exact Or.inl hp

lemma kahnInv_step {g : Digraph} (hwf : WF g) {n : String} {S' : List String}
    {E : List (String × String)} {L : List String}
    (inv : KahnInv g (n :: S') E L) :
    KahnInv g
      (((childIds E n).filter
          (fun m => indegree (E.filter (fun p => p.1 ≠ n)) m = 0)).reverse ++ S')
      (E.filter (fun p => p.1 ≠ n)) (L ++ [n]) := by
  have hnE : n ∈ g.vertexIds := inv.sMem n (List.mem_cons_self _ _)
  have hnDeg : indegree E n = 0 := inv.sDeg n (List.mem_cons_self _ _)
  have hFsub : (E.filter (fun p => p.1 ≠ n)).Sublist E := List.filter_sublist E
  have hPushed : ∀ m ∈ ((childIds E n).filter
      (fun m => indegree (E.filter (fun p => p.1 ≠ n)) m = 0)).reverse,
      (n, m) ∈ E ∧ indegree (E.filter (fun p => p.1 ≠ n)) m = 0 := by
    intro m hm
    have hm' := List.mem_reverse.mp hm
    obtain ⟨h1, h2⟩ := List.mem_filter.mp hm'
    exact ⟨mem_childIds_iff.mp h1, by simpa using h2⟩
  refine ⟨hFsub.trans inv.sub, ?_, ?_, ?_, ?_, ?_, ?_, ?_, ?_, ?_⟩
  · -- sMem
    intro v hv
    rcases List.mem_append.mp hv with h | h
    · have := (hPushed v h).1
      exact (hwf.2.2 _ (inv.sub.subset this)).2.1
    · exact inv.sMem v (List.mem_cons_of_mem _ h)
  · -- sDeg
    intro v hv
    rcases List.mem_append.mp hv with h | h
    · exact (hPushed v h).2
    · have := inv.sDeg v (List.mem_cons_of_mem _ h)
      have hle := indegree_le_of_sublist hFsub v
      omega
  · -- lMem
    intro v hv
    rcases List.mem_append.mp hv with h | h
    · exact inv.lMem v h
    · rw [List.mem_singleton.mp h]; exact hnE
  · -- lDeg
    intro v hv
    rcases List.mem_append.mp hv with h | h
    · have hle := indegree_le_of_sublist hFsub v
      have := inv.lDeg v h; omega
    · rw [List.mem_singleton.mp h]
      have hle := indegree_le_of_sublist hFsub n
      omega
  · -- lOut
    intro v hv p hp
    rcases List.mem_append.mp hv with h | h
    · exact inv.lOut v h p (hFsub.subset hp)
    · rw [List.mem_singleton.mp h]
      have := (List.mem_filter.mp hp).2
      simpa using this
  · -- comp
    intro v hv hdegF
    by_cases hE0 : indegree E v = 0
    · rcases inv.comp v hv hE0 with hS | hL
      · rcases List.mem_cons.mp hS with h | h
        · exact Or.inr (List.mem_append.mpr (Or.inr (by rw [h]; exact List.mem_singleton_self _)))
        · exact Or.inl (List.mem_append.mpr (Or.inr h))
      · exact Or.inr (List.mem_append.mpr (Or.inl hL))
    · obtain ⟨p, hpE, hp2⟩ := exists_of_indegree_pos (Nat.pos_of_ne_zero hE0)
      have hp1 : p.1 = n := by
        by_contra hne
        have hpF : p ∈ E.filter (fun p => p.1 ≠ n) :=
          List.mem_filter.mpr ⟨hpE, by simpa using hne⟩
        exact (indegree_eq_zero_iff.mp hdegF p hpF) hp2
      have hnv : (n, v) ∈ E := by
        have : p = (n, v) := by
          cases p with
          | mk a b => simp only at hp1 hp2; rw [hp1, hp2]
        rwa [this] at hpE
      refine Or.inl (List.mem_append.mpr (Or.inl ?_))
      exact List.mem_reverse.mpr
        (List.mem_filter.mpr ⟨mem_childIds_iff.mpr hnv, by simpa using hdegF⟩)
  · -- nd
    have hnd0 : ((L ++ [n]) ++ S').Nodup := by
      have := inv.nd
      rwa [List.append_cons] at this
    have hndE : E.Nodup := inv.sub.nodup hwf.2.1
    have hPn : ((childIds E n).filter
        (fun m => indegree (E.filter (fun p => p.1 ≠ n)) m = 0)).reverse.Nodup :=
      List.nodup_reverse.mpr ((childIds_nodup hndE n).filter _)
    have hperm : List.Perm
        ((L ++ [n]) ++
          (((childIds E n).filter
            (fun m => indegree (E.filter (fun p => p.1 ≠ n)) m = 0)).reverse ++ S'))
        (((childIds E n).filter
          (fun m => indegree (E.filter (fun p => p.1 ≠ n)) m = 0)).reverse ++
          ((L ++ [n]) ++ S')) := by
      have hcomm := (@List.perm_append_comm String (L ++ [n])
        (((childIds E n).filter
          (fun m => indegree (E.filter (fun p => p.1 ≠ n)) m = 0)).reverse)).append_right S'
      simpa [List.append_assoc] using hcomm
    rw [hperm.nodup_iff]
    rw [List.nodup_append]
    refine ⟨hPn, hnd0, ?_⟩
    intro a haP haRest
    have hdegPos : 0 < indegree E a := indegree_pos_of_mem (hPushed a haP).1
    have hdeg0 : indegree E a = 0 := by
      rcases List.mem_append.mp haRest with h | h
      · rcases List.mem_append.mp h with h' | h'
        · exact inv.lDeg a h'
        · rw [List.mem_singleton.mp h']; exact hnDeg
      · exact inv.sDeg a (List.mem_cons_of_mem _ h)
    omega
  · -- ordL
    intro p hp hp2
    rcases List.mem_append.mp hp2 with h | h
    · exact (inv.ordL p hp h).trans (List.sublist_append_left _ _)
    · have hp2n : p.2 = n := List.mem_singleton.mp h
      have hpnotE : p ∉ E := by
        intro hc
        exact (indegree_eq_zero_iff.mp hnDeg p hc) hp2n
      have hp1L : p.1 ∈ L := (inv.remL p hp).resolve_left hpnotE
      have hsub : ([p.1] ++ [p.2]).Sublist (L ++ [n]) := by
        rw [hp2n]
        exact List.Sublist.append (List.singleton_sublist.mpr hp1L)
          (List.Sublist.refl _)
      simpa using hsub
  · -- remL
    intro p hp
    rcases inv.remL p hp with h | h
    · by_cases h1 : p.1 = n
      · exact Or.inr (List.mem_append.mpr (Or.inr (by rw [h1]; exact List.mem_singleton_self _)))
      · exact Or.inl (List.mem_filter.mpr ⟨h, by simpa using h1⟩)
    · exact Or.inr (List.mem_append.mpr (Or.inl h))

lemma kahnLoop_inv {g : Digraph} (hwf : WF g) :
    ∀ (fuel : Nat) (S : List String) (E : List (String × String)) (L : List String),
      2 * E.length + S.length ≤ fuel → KahnInv g S E L →
      ∃ L' E', kahnLoop fuel S E L = some (L', E') ∧ KahnInv g [] E' L' := by
  intro fuel
  induction fuel with
  | zero =>
    intro S E L hk inv
    cases S with
    | nil => exact ⟨L, E, rfl, inv⟩
    | cons n S' => simp at hk
  | succ fuel ih =>
    intro S E L hk inv
    cases S with
    | nil => exact ⟨L, E, rfl, inv⟩
    | cons n S' =>
      have hndE : E.Nodup := inv.sub.nodup hwf.2.1
      have hspec := processChildren_spec n E.length E S' (Nat.le_refl _) hndE
      have hmeas := processChildren_measure n _ _ _ _ _ hspec
      have hunfold : kahnLoop (fuel + 1) (n :: S') E L =
          kahnLoop fuel
            (((childIds E n).filter
              (fun m => indegree (E.filter (fun p => p.1 ≠ n)) m = 0)).reverse ++ S')
            (E.filter (fun p => p.1 ≠ n)) (L ++ [n]) := by
        show (match processChildren n (childIds E n) E S' with
          | none => none
          | some (E', S'') => kahnLoop fuel S'' E' (L ++ [n])) = _
        rw [hspec]
      rw [hunfold]
      apply ih
      · simp only [List.length_cons] at hk
        omega
      · exact kahnInv_step hwf inv

/-- In a nonempty edge set where every edge's start is some edge's end,
walking predecessors must revisit a vertex: the edge set contains a
cycle. -/
lemma cycle_of_closed {E : List (String × String)} (hne : E ≠ [])
    (hcl : ∀ p ∈ E, ∃ q ∈ E, q.2 = p.1) :
    ∃ v, Relation.TransGen (edgeRel E) v v := by
  classical
  obtain ⟨pred, hpred⟩ : ∃ pred : (String × String) → (String × String),
      ∀ p ∈ E, pred p ∈ E ∧ (pred p).2 = p.1 := by
    refine ⟨fun p => if h : p ∈ E then (hcl p h).choose else p, ?_⟩
    intro p hp
    simp only [dif_pos hp]
    obtain ⟨h1, h2⟩ := (hcl p hp).choose_spec
    exact ⟨h1, h2⟩
  have hwalkMem : ∀ k, pred^[k] (E.head hne) ∈ E := by
    intro k
    induction k with
    | zero => exact List.head_mem hne
    | succ k ih =>
      rw [Function.iterate_succ_apply']
      exact (hpred _ ih).1
  have hedge : ∀ k,
      edgeRel E (pred^[k + 1] (E.head hne)).1 (pred^[k] (E.head hne)).1 := by
    intro k
    have hmem := hwalkMem (k + 1)
    have hlink : (pred^[k + 1] (E.head hne)).2 = (pred^[k] (E.head hne)).1 := by
      rw [Function.iterate_succ_apply']
      exact (hpred _ (hwalkMem k)).2
    have hh : ((pred^[k + 1] (E.head hne)).1, (pred^[k + 1] (E.head hne)).2) ∈ E := by
      simpa using hmem
    rw [hlink] at hh
    exact hh
  have hchain : ∀ (d k : Nat),
      Relation.TransGen (edgeRel E)
        (pred^[k + d + 1] (E.head hne)).1 (pred^[k] (E.head hne)).1 := by
    intro d
    induction d with
    | zero => intro k; exact Relation.TransGen.single (hedge k)
    | succ d ih =>
      intro k
      have hstep := hedge (k + d + 1)
      exact Relation.TransGen.head hstep (ih k)
  have hcard : E.toFinset.card < (Finset.range (E.length + 1)).card := by
    rw [Finset.card_range]
    exact Nat.lt_succ_of_le E.toFinset_card_le
  obtain ⟨i, _, j, _, hij, heq⟩ :=
    Finset.exists_ne_map_eq_of_card_lt_of_maps_to hcard
      (fun k _ => List.mem_toFinset.mpr (hwalkMem k))
  rcases Ne.lt_or_lt hij with hlt | hlt
  · refine ⟨(pred^[i] (E.head hne)).1, ?_⟩
    have h := hchain (j - i - 1) i
    have hji : i + (j - i - 1) + 1 = j := by omega
    rw [hji] at h
    rwa [← heq] at h
  · refine ⟨(pred^[j] (E.head hne)).1, ?_⟩
    have h := hchain (i - j - 1) j
    have hji : j + (i - j - 1) + 1 = i := by omega
    rw [hji] at h
    rwa [heq] at h

lemma sublist_pair_idxOf_lt {L : List String} {a b : String}
    (hnd : L.Nodup) (hs : List.Sublist [a, b] L) : idxOf a L < idxOf b L := by
  induction L with
  | nil => cases hs
  | cons x L' ih =>
    obtain ⟨hx, hnd'⟩ := List.nodup_cons.mp hnd
    cases hs with
    | cons _ hs' =>
      have haL : a ∈ L' := hs'.subset (by simp)
      have hbL : b ∈ L' := hs'.subset (by simp)
      have hax : x ≠ a := fun hc => hx (hc ▸ haL)
      have hbx : x ≠ b := fun hc => hx (hc ▸ hbL)
      simp only [idxOf, if_neg hax, if_neg hbx]
      have := ih hnd' hs'
      omega
    | cons₂ _ hs' =>
      have hbL : b ∈ L' := hs'.subset (by simp)
      have hba : a ≠ b := fun hc => hx (hc ▸ hbL)
      simp [idxOf, hba]

/-- A duplicate-free list in which every edge's endpoints occur in order
witnesses acyclicity. -/
lemma not_cycle_of_linear {E : List (String × String)} {L : List String}
    (hnd : L.Nodup) (hlin : ∀ p ∈ E, List.Sublist [p.1, p.2] L) :
    ¬ hasCycle E := by
  rintro ⟨v, hv⟩
  have hrank : ∀ a b, Relation.TransGen (edgeRel E) a b →
      idxOf a L < idxOf b L := by
    intro a b h
    induction h with
    | single h1 => exact sublist_pair_idxOf_lt hnd (hlin _ h1)
    | @tail b c _ h2 ih =>
      have h3 : idxOf b L < idxOf c L := sublist_pair_idxOf_lt hnd (hlin _ h2)
      omega
  exact Nat.lt_irrefl _ (hrank v v hv)

lemma kahnInv_final_perm {g : Digraph} (hwf : WF g)
    {E' : List (String × String)} {L : List String}
    (inv : KahnInv g [] E' L) (hE : E' = []) :
    L.Nodup ∧ (∀ v, v ∈ L ↔ v ∈ g.vertexIds) ∧
      ∀ p ∈ g.edges, List.Sublist [p.1, p.2] L := by
  subst hE
  refine ⟨by simpa using inv.nd, ?_, ?_⟩
  · intro v
    constructor
    · exact fun h => inv.lMem v h
    · intro hv
      rcases inv.comp v hv (by simp [indegree]) with h | h
      · cases h
      · exact h
  · intro p hp
    have hp2 : p.2 ∈ L := by
      have hids := hwf.2.2 p hp
      rcases inv.comp p.2 hids.2.1 (by simp [indegree]) with h | h
      · cases h
      · exact h
    exact inv.ordL p hp hp2

lemma kahnInv_final_cycle {g : Digraph} (hwf : WF g)
    {E' : List (String × String)} {L : List String}
    (inv : KahnInv g [] E' L) (hne : E' ≠ []) : hasCycle g.edges := by
  have hcl : ∀ p ∈ E', ∃ q ∈ E', q.2 = p.1 := by
    intro p hp
    by_contra hc
    push_neg at hc
    have hdeg : indegree E' p.1 = 0 := indegree_eq_zero_iff.mpr hc
    have hp1 : p.1 ∈ g.vertexIds := (hwf.2.2 p (inv.sub.subset hp)).1
    rcases inv.comp p.1 hp1 hdeg with h | h
    · cases h
    · exact inv.lOut p.1 h p hp rfl
  obtain ⟨v, hv⟩ := cycle_of_closed hne hcl
  exact ⟨v, Relation.TransGen.mono (fun x y hxy => inv.sub.subset hxy) hv⟩

/--
The full behaviour of `topologicalSort` on a well-formed graph: it
completes, restores the graph, and the returned list is empty exactly when
the graph has a cycle or has no vertices; in the acyclic case the list
holds every vertex exactly once, in an order consistent with every edge.
-/
lemma topologicalSort_spec {g : Digraph} (hwf : WF g) :
    ∃ L, topologicalSort g = some (L, g) ∧
      (L = [] ↔ (hasCycle g.edges ∨ g.vertexIds = [])) ∧
      (¬ hasCycle g.edges →
        L.Nodup ∧ (∀ v, v ∈ L ↔ v ∈ g.vertexIds) ∧
        ∀ p ∈ g.edges, List.Sublist [p.1, p.2] L) := by
  obtain ⟨L0, E0, hk, inv⟩ :=
    kahnLoop_inv hwf (kahnFuelBound g.edges ((roots g).reverse))
      ((roots g).reverse) g.edges [] (Nat.le_refl _) (kahnInv_init hwf)
  by_cases hE0 : E0 = []
  · obtain ⟨hnd, hmem, hord⟩ := kahnInv_final_perm hwf inv hE0
    have hnc : ¬ hasCycle g.edges := not_cycle_of_linear hnd hord
    refine ⟨L0, ?_, ?_, fun _ => ⟨hnd, hmem, hord⟩⟩
    · simp only [topologicalSort]
      rw [hk, hE0]
      simp
    · constructor
      · intro hL0
        right
        by_contra hids
        obtain ⟨v, hv⟩ := List.exists_mem_of_ne_nil _ hids
        have hvL := (hmem v).mpr hv
        rw [hL0] at hvL
        cases hvL
      · rintro (hcyc | hids)
        · exact absurd hcyc hnc
        · cases hL0 : L0 with
          | nil => rfl
          | cons a L0' =>
            have haid : a ∈ g.vertexIds := (hmem a).mp (by rw [hL0]; simp)
            rw [hids] at haid
            cases haid
  · have hcyc := kahnInv_final_cycle hwf inv hE0
    refine ⟨[], ?_, ?_, fun hnc => absurd hcyc hnc⟩
    · simp only [topologicalSort]
      rw [hk]
      have hpos : E0.length > 0 := List.length_pos.mpr hE0
      simp [hpos]
    · simp [hcyc]

/-- `topologicalSort` always completes (the in-loop `removeEdge` calls
never throw and the fuel bound suffices) and, both on the cycle branch and
on the success branch, returns the graph with the edge snapshot restored:
the post-call graph equals the pre-call graph. -/
lemma topologicalSort_total (g : Digraph) :
    ∃ L, topologicalSort g = some (L, g) := by
  have h := kahnLoop_isSome (kahnFuelBound g.edges ((roots g).reverse))
    ((roots g).reverse) g.edges [] (Nat.le_refl _)
  obtain ⟨⟨L, Efinal⟩, hk⟩ := Option.isSome_iff_exists.mp h
  simp only [topologicalSort]
  rw [hk]
  by_cases hlen : Efinal.length > 0
  · exact ⟨[], by simp [hlen]⟩
  · exact ⟨L, by simp [hlen]⟩

/-! ## Lemmas about the per-vertex state list -/

lemma idxOf_lt_length {ids : List String} {v : String} (h : v ∈ ids) :
    idxOf v ids < ids.length := by
  induction ids with
  | nil => cases h
  | cons a rest ih =>
    by_cases ha : a = v
    · simp [idxOf, ha]
    · rcases List.mem_cons.mp h with h1 | h1
      · exact absurd h1.symm ha
      · simp only [idxOf, if_neg ha, List.length_cons]
        exact Nat.succ_lt_succ (ih h1)

lemma idxOf_eq_length {ids : List String} {v : String} (h : v ∉ ids) :
    idxOf v ids = ids.length := by
  induction ids with
  | nil => rfl
  | cons a rest ih =>
    have ha : a ≠ v := fun hc => h (by rw [hc]; exact List.mem_cons_self _ _)
    simp only [idxOf, if_neg ha, List.length_cons]
    rw [ih (fun hc => h (List.mem_cons_of_mem _ hc))]

lemma idxOf_ne_of_ne {ids : List String} (hnd : ids.Nodup) {v w : String}
    (hv : v ∈ ids) (hw : w ∈ ids) (hne : v ≠ w) :
    idxOf v ids ≠ idxOf w ids := by
  induction ids with
  | nil => cases hv
  | cons a rest ih =>
    obtain ⟨hna, hnd'⟩ := List.nodup_cons.mp hnd
    by_cases hav : a = v
    · have haw : a ≠ w := fun hc => hne (hav ▸ hc ▸ rfl)
      have hwrest : w ∈ rest := by
        rcases List.mem_cons.mp hw with h1 | h1
        · exact absurd h1.symm haw
        · exact h1
      simp [idxOf, hav, haw, hne]
    · by_cases haw : a = w
      · have hvrest : v ∈ rest := by
          rcases List.mem_cons.mp hv with h1 | h1
          · exact absurd h1.symm hav
          · exact h1
        have hwv : w ≠ v := Ne.symm hne
        simp [idxOf, hav, haw, hwv]
      · have hvrest : v ∈ rest := by
          rcases List.mem_cons.mp hv with h1 | h1
          · exact absurd h1.symm hav
          · exact h1
        have hwrest : w ∈ rest := by
          rcases List.mem_cons.mp hw with h1 | h1
          · exact absurd h1.symm haw
          · exact h1
        simp only [idxOf, if_neg hav, if_neg haw]
        exact fun hc => ih hnd' hvrest hwrest (Nat.succ_injective hc)

lemma idxOf_getElem {ids : List String} (hnd : ids.Nodup) (i : Nat)
    (h : i < ids.length) : idxOf ids[i] ids = i := by
  induction ids generalizing i with
  | nil => cases h
  | cons a rest ih =>
    obtain ⟨hna, hnd'⟩ := List.nodup_cons.mp hnd
    cases i with
    | zero => simp [idxOf]
    | succ i =>
      have hi : i < rest.length := Nat.lt_of_succ_lt_succ h
      have hmem : rest[i] ∈ rest := List.getElem_mem hi
      have hne : a ≠ rest[i] := fun hc => hna (hc ▸ hmem)
      simp only [List.getElem_cons_succ, idxOf, if_neg hne]
      rw [ih hnd' i hi]

lemma length_setNth (sts : List VState) (i : Nat) (s : VState) :
    (setNth sts i s).length = sts.length := by
  induction sts generalizing i with
  | nil => rfl
  | cons a rest ih =>
    cases i with
    | zero => rfl
    | succ i => simp [setNth, ih]

lemma nthD_eq_getElem {sts : List VState} {i : Nat} (h : i < sts.length) :
    nthD sts i = sts[i] := by
  induction sts generalizing i with
  | nil => cases h
  | cons a rest ih =>
    cases i with
    | zero => rfl
    | succ i => exact ih (Nat.lt_of_succ_lt_succ h)

lemma nthD_eq_of_ge {sts : List VState} {i : Nat} (h : sts.length ≤ i) :
    nthD sts i = VState.NOT_READY := by
  induction sts generalizing i with
  | nil => rfl
  | cons a rest ih =>
    cases i with
    | zero => cases h
    | succ i => exact ih (Nat.le_of_succ_le_succ h)

lemma setNth_eq_of_ge {sts : List VState} {i : Nat} (h : sts.length ≤ i)
    (s : VState) : setNth sts i s = sts := by
  induction sts generalizing i with
  | nil => rfl
  | cons a rest ih =>
    cases i with
    | zero => cases h
    | succ i => simp [setNth, ih (Nat.le_of_succ_le_succ h)]

lemma nthD_setNth_self {sts : List VState} {i : Nat} (h : i < sts.length)
    (s : VState) : nthD (setNth sts i s) i = s := by
  induction sts generalizing i with
  | nil => cases h
  | cons a rest ih =>
    cases i with
    | zero => rfl
    | succ i => exact ih (Nat.lt_of_succ_lt_succ h)

lemma nthD_setNth_other {sts : List VState} {i j : Nat} (h : i ≠ j)
    (s : VState) : nthD (setNth sts i s) j = nthD sts j := by
  induction sts generalizing i j with
  | nil => rfl
  | cons a rest ih =>
    cases i with
    | zero =>
      cases j with
      | zero => exact absurd rfl h
      | succ j => rfl
    | succ i =>
      cases j with
      | zero => rfl
      | succ j => exact ih (fun hc => h (by rw [hc]))

lemma length_setKey (ids : List String) (sts : List VState) (v : String)
    (s : VState) : (setKey ids sts v s).length = sts.length :=
  length_setNth sts (idxOf v ids) s

lemma stateAt_setKey_self {ids : List String} {sts : List VState} {v : String}
    (hv : v ∈ ids) (hlen : sts.length = ids.length) (s : VState) :
    stateAt ids (setKey ids sts v s) v = s := by
  unfold stateAt setKey
  exact nthD_setNth_self (by rw [hlen]; exact idxOf_lt_length hv) s

lemma stateAt_setKey_other {ids : List String} {sts : List VState}
    {v w : String} (hnd : ids.Nodup) (hlen : sts.length = ids.length)
    (hne : w ≠ v) (s : VState) :
    stateAt ids (setKey ids sts v s) w = stateAt ids sts w := by
  unfold stateAt setKey
  by_cases hv : v ∈ ids
  · by_cases hw : w ∈ ids
    · exact nthD_setNth_other (idxOf_ne_of_ne hnd hv hw (Ne.symm hne)) s
    · rw [nthD_eq_of_ge, nthD_eq_of_ge]
      · rw [hlen, idxOf_eq_length hw]
      · rw [length_setNth, hlen, idxOf_eq_length hw]
  · rw [setNth_eq_of_ge]
    rw [hlen, idxOf_eq_length hv]

lemma stateAt_not_mem {ids : List String} {sts : List VState} {v : String}
    (hv : v ∉ ids) (hlen : sts.length = ids.length) :
    stateAt ids sts v = VState.NOT_READY := by
  unfold stateAt
  rw [nthD_eq_of_ge]
  rw [hlen, idxOf_eq_length hv]

lemma foldl_setKey_length (ids : List String) :
    ∀ (ps : List (String × VState)) (sts : List VState),
      (ps.foldl (fun acc p => setKey ids acc p.1 p.2) sts).length = sts.length := by
  intro ps
  induction ps with
  | nil => intro sts; rfl
  | cons q rest ih =>
    intro sts
    simp only [List.foldl_cons]
    rw [ih, length_setKey]

lemma foldl_setKey_not_key {ids : List String} (hnd : ids.Nodup) :
    ∀ (ps : List (String × VState)) (sts : List VState) (v : String),
      sts.length = ids.length → v ∉ ps.map Prod.fst →
      stateAt ids (ps.foldl (fun acc p => setKey ids acc p.1 p.2) sts) v =
        stateAt ids sts v := by
  intro ps
  induction ps with
  | nil => intro sts v _ _; rfl
  | cons q rest ih =>
    intro sts v hlen hv
    simp only [List.map_cons, List.mem_cons, not_or] at hv
    simp only [List.foldl_cons]
    rw [ih _ v (by rw [length_setKey]; exact hlen) hv.2,
      stateAt_setKey_other hnd hlen hv.1 q.2]

lemma foldl_setKey_key {ids : List String} (hnd : ids.Nodup) :
    ∀ (ps : List (String × VState)) (sts : List VState) (v : String) (s : VState),
      sts.length = ids.length → (ps.map Prod.fst).Nodup → v ∈ ids →
      (v, s) ∈ ps →
      stateAt ids (ps.foldl (fun acc p => setKey ids acc p.1 p.2) sts) v = s := by
  intro ps
  induction ps with
  | nil => intro sts v s _ _ _ h; cases h
  | cons q rest ih =>
    intro sts v s hlen hkeys hvids hmem
    have hkeys2 : (q.1 :: rest.map Prod.fst).Nodup := by simpa using hkeys
    obtain ⟨hq, hkeys'⟩ := List.nodup_cons.mp hkeys2
    simp only [List.foldl_cons]
    rcases List.mem_cons.mp hmem with h1 | h1
    · have hqv : q.1 = v := by rw [← h1]
      have hqs : q.2 = s := by rw [← h1]
      have hvrest : v ∉ rest.map Prod.fst := by
        rw [← hqv]; exact hq
      rw [foldl_setKey_not_key hnd rest _ v
        (by rw [length_setKey]; exact hlen) hvrest]
      rw [hqv, hqs]
      exact stateAt_setKey_self hvids hlen s
    · exact ih _ v s (by rw [length_setKey]; exact hlen) hkeys' hvids h1

lemma zip_map_self (f : String → VState) (l : List String) :
    l.zip (l.map f) = l.map (fun x => (x, f x)) := by
  induction l with
  | nil => rfl
  | cons a rest ih => simp [ih]

lemma updateStates_length (E : List (String × String)) (ids topo : List String)
    (sts : List VState) :
    (updateStates E ids topo sts).length = sts.length := by
  unfold updateStates
  rw [foldl_setKey_length]

/-- A duplicate-free order of the same length as the vertex list that only
mentions vertices is a permutation of the vertex list. -/
lemma topo_perm {ids topo : List String} (hndT : topo.Nodup)
    (hsub : ∀ v ∈ topo, v ∈ ids) (hlenT : topo.length = ids.length) :
    List.Perm topo ids := by
  have hsp : topo.Subperm ids := List.Nodup.subperm hndT hsub
  exact hsp.perm_of_length_le (by omega)

/--
Pointwise description of a full propagation pass: with a valid topological
order (duplicate-free, as long as the vertex list, mentioning only
vertices), the state of every vertex of the order after `updateStates` is
the rule applied to the pre-call snapshot.
-/
lemma updateStates_stateAt {E : List (String × String)} {ids topo : List String}
    {sts : List VState} (hndIds : ids.Nodup) (hndT : topo.Nodup)
    (hsub : ∀ v ∈ topo, v ∈ ids) (hlenT : topo.length = ids.length)
    (hlenS : sts.length = ids.length) {v : String} (hv : v ∈ topo) :
    stateAt ids (updateStates E ids topo sts) v = computeNewState E ids sts v := by
  unfold updateStates
  have htake : topo.take ids.length = topo := by
    rw [← hlenT]
    exact List.take_length topo
  rw [htake]
  simp only [zip_map_self]
  apply foldl_setKey_key hndIds _ _ v _ hlenS _ (hsub v hv)
  · exact List.mem_map.mpr ⟨v, hv, rfl⟩
  · simp only [List.map_map]
    have hcomp : (Prod.fst ∘ fun w => (w, computeNewState E ids sts w)) = id := rfl
    rw [hcomp, List.map_id]
    exact hndT

lemma computeNewState_eq_specRule (E : List (String × String))
    (ids : List String) (sts : List VState) (v : String) :
    computeNewState E ids sts v = specPropagationRule E ids sts v := by
  unfold computeNewState specPropagationRule
  by_cases h : stateAt ids sts v = NOT_READY
  · simp [h]
  · simp [h]

lemma stateList_ext {ids : List String} (hnd : ids.Nodup)
    {sts1 sts2 : List VState} (hlen1 : sts1.length = ids.length)
    (hlen2 : sts2.length = ids.length)
    (h : ∀ v ∈ ids, stateAt ids sts1 v = stateAt ids sts2 v) : sts1 = sts2 := by
  apply List.ext_getElem (by rw [hlen1, hlen2])
  intro i h1 h2
  have hi : i < ids.length := by rw [← hlen1]; exact h1
  have hv := h ids[i] (List.getElem_mem hi)
  unfold stateAt at hv
  rw [idxOf_getElem hnd i hi, nthD_eq_getElem h1, nthD_eq_getElem h2] at hv
  exact hv

/-! ## Idempotence of propagation on FAIL-free states -/

/--
On a FAIL-free snapshot, one propagation pass can only move NOT_READY
vertices to READY or leave them: pointwise, being SUCCESS is unchanged and
no vertex becomes FAIL.
-/
lemma updateStates_noFail_pointwise {E : List (String × String)}
    {ids topo : List String} {sts : List VState} (hndIds : ids.Nodup)
    (hndT : topo.Nodup) (hsub : ∀ v ∈ topo, v ∈ ids)
    (hlenT : topo.length = ids.length) (hlenS : sts.length = ids.length)
    (hnoFail : ∀ v ∈ ids, stateAt ids sts v ≠ VState.FAIL) (p : String) :
    (stateAt ids (updateStates E ids topo sts) p = VState.SUCCESS ↔
      stateAt ids sts p = VState.SUCCESS) ∧
      stateAt ids (updateStates E ids topo sts) p ≠ VState.FAIL := by
  have hnoFail' : ∀ q, stateAt ids sts q ≠ VState.FAIL := by
    intro q
    by_cases hq : q ∈ ids
    · exact hnoFail q hq
    · rw [stateAt_not_mem hq hlenS]; simp
  have hlen1 : (updateStates E ids topo sts).length = ids.length := by
    rw [updateStates_length]; exact hlenS
  by_cases hp : p ∈ ids
  · have hpt : p ∈ topo := (topo_perm hndT hsub hlenT).mem_iff.mpr hp
    rw [updateStates_stateAt hndIds hndT hsub hlenT hlenS hpt]
    unfold computeNewState
    by_cases h : stateAt ids sts p = NOT_READY
    · rw [if_pos h]
      have hnofailpar : ¬ ∃ q ∈ parentIds E p, stateAt ids sts q = FAIL := by
        rintro ⟨q, _, hq⟩
        exact hnoFail' q hq
      by_cases h0 : indegree E p = 0
      · rw [if_pos h0]
        simp [h]
      · rw [if_neg h0]
        by_cases hall : ∀ q ∈ parentIds E p, stateAt ids sts q = SUCCESS
        · rw [if_pos hall]
          simp [h]
        · rw [if_neg hall, if_neg hnofailpar]
          simp [h]
    · rw [if_neg h]
      exact ⟨Iff.rfl, hnoFail' p⟩
  · rw [stateAt_not_mem hp hlen1, stateAt_not_mem hp hlenS]
    simp

lemma updateStates_idem_of_noFail {E : List (String × String)}
    {ids topo : List String} {sts : List VState} (hndIds : ids.Nodup)
    (hndT : topo.Nodup) (hsub : ∀ v ∈ topo, v ∈ ids)
    (hlenT : topo.length = ids.length) (hlenS : sts.length = ids.length)
    (hnoFail : ∀ v ∈ ids, stateAt ids sts v ≠ VState.FAIL) :
    updateStates E ids topo (updateStates E ids topo sts) =
      updateStates E ids topo sts := by
  have hlen1 : (updateStates E ids topo sts).length = ids.length := by
    rw [updateStates_length]; exact hlenS
  have hpoint := @updateStates_noFail_pointwise E ids topo sts hndIds hndT hsub
    hlenT hlenS hnoFail
  apply stateList_ext hndIds (by rw [updateStates_length]; exact hlen1) hlen1
  intro v hv
  have hvt : v ∈ topo := (topo_perm hndT hsub hlenT).mem_iff.mpr hv
  rw [updateStates_stateAt hndIds hndT hsub hlenT hlen1 hvt]
  by_cases h1 : stateAt ids (updateStates E ids topo sts) v = NOT_READY
  · -- the first pass left v NOT_READY: the snapshot was NOT_READY and the
    -- rule decided NOT_READY; the second pass decides the same
    have hfirst : stateAt ids (updateStates E ids topo sts) v =
        computeNewState E ids sts v :=
      updateStates_stateAt hndIds hndT hsub hlenT hlenS hvt
    have hsv : stateAt ids sts v = NOT_READY := by
      by_contra hc
      rw [hfirst] at h1
      unfold computeNewState at h1
      rw [if_neg hc] at h1
      exact hc h1
    have hNR : computeNewState E ids sts v = NOT_READY := by rw [← hfirst, h1]
    unfold computeNewState at hNR
    rw [if_pos hsv] at hNR
    have hd0 : ¬ indegree E v = 0 := by
      intro hc
      rw [if_pos hc] at hNR
      cases hNR
    rw [if_neg hd0] at hNR
    have hall : ¬ ∀ q ∈ parentIds E v, stateAt ids sts q = SUCCESS := by
      intro hc
      rw [if_pos hc] at hNR
      cases hNR
    unfold computeNewState
    rw [if_pos h1, if_neg hd0]
    have hall1 : ¬ ∀ q ∈ parentIds E v,
        stateAt ids (updateStates E ids topo sts) q = SUCCESS := by
      intro hc
      exact hall (fun q hq => ((hpoint q).1).mp (hc q hq))
    have hfail1 : ¬ ∃ q ∈ parentIds E v,
        stateAt ids (updateStates E ids topo sts) q = FAIL := by
      rintro ⟨q, _, hq⟩
      exact (hpoint q).2 hq
    rw [if_neg hall1, if_neg hfail1]
    exact h1.symm
  · unfold computeNewState
    rw [if_neg h1]

/-! ## Claims C2, C3, C5, C6 -/

/--
C2: `updateStates` computes, for every vertex in `topoOrder`, a new state
from the single snapshot of the pre-call states and applies all new states
only in a second pass: a vertex whose state is not NOT_READY keeps its
state; a NOT_READY vertex of indegree 0 becomes READY; a NOT_READY vertex
with parents becomes READY if every parent is SUCCESS, else FAIL if some
parent is FAIL, else stays NOT_READY; no transition made within one call
influences the decision for a later vertex of the same call (every
vertex's post-call state is the rule applied to the pre-call snapshot).
-/
theorem c2_propagation_snapshot {E : List (String × String)}
    {ids topo : List String} {sts : List VState}
    (hndIds : ids.Nodup) (hndT : topo.Nodup) (hsub : ∀ v ∈ topo, v ∈ ids)
    (hlenT : topo.length = ids.length) (hlenS : sts.length = ids.length) :
    ∀ v ∈ topo,
      stateAt ids (updateStates E ids topo sts) v =
        specPropagationRule E ids sts v := by
  intro v hv
  rw [updateStates_stateAt hndIds hndT hsub hlenT hlenS hv,
    computeNewState_eq_specRule]

theorem c2_witness :
    stateAt ["A", "B"]
        (updateStates [("A", "B")] ["A", "B"] ["A", "B"]
          [VState.SUCCESS, VState.NOT_READY]) "B" =
      specPropagationRule [("A", "B")] ["A", "B"]
        [VState.SUCCESS, VState.NOT_READY] "B" :=
  c2_propagation_snapshot (by decide) (by decide) (by decide) (by decide)
    (by decide) "B" (by decide)

/--
C3 counterexample: on the graph with no vertices and no edges,
`topologicalSort` returns the empty list although the graph contains no
cycle — refuting "returns the empty list if and only if the graph
contains a cycle" as stated.
-/
theorem c3_counterexample :
    topologicalSort { vertexIds := [], edges := [] } =
        some ([], { vertexIds := [], edges := [] }) ∧
      ¬ hasCycle (Digraph.mk [] []).edges := by
  constructor
  · rfl
  · intro hc
    obtain ⟨v, hv⟩ := hc
    have haux : ∀ a b : String,
        Relation.TransGen (edgeRel ([] : List (String × String))) a b → False := by
      intro a b h
      induction h with
      | single h1 => cases h1
      | tail _ h1 _ => cases h1
    exact haux v v hv

/--
C3 (amended): `topologicalSort` returns the empty list if and only if the
graph contains a cycle **or has no vertices**; when the graph is acyclic
it returns a sequence containing every vertex exactly once, in an order
consistent with the edges (for every edge (s,e), s appears before e), and
in every case the edge set is restored (the returned graph equals the
input graph).
-/
theorem c3_topologicalSort_correct {g : Digraph} (hwf : WF g) :
    ∃ L, topologicalSort g = some (L, g) ∧
      (L = [] ↔ (hasCycle g.edges ∨ g.vertexIds = [])) ∧
      (¬ hasCycle g.edges →
        L.Nodup ∧ (∀ v, v ∈ L ↔ v ∈ g.vertexIds) ∧
        ∀ p ∈ g.edges, List.Sublist [p.1, p.2] L) :=
  topologicalSort_spec hwf

theorem c3_witness :
    ∃ L, topologicalSort { vertexIds := ["A", "B"], edges := [("A", "B")] } =
        some (L, { vertexIds := ["A", "B"], edges := [("A", "B")] }) ∧
      (L = [] ↔ (hasCycle (Digraph.mk ["A", "B"] [("A", "B")]).edges ∨
        (Digraph.mk ["A", "B"] [("A", "B")]).vertexIds = [])) ∧
      (¬ hasCycle (Digraph.mk ["A", "B"] [("A", "B")]).edges →
        L.Nodup ∧
        (∀ v, v ∈ L ↔ v ∈ (Digraph.mk ["A", "B"] [("A", "B")]).vertexIds) ∧
        ∀ p ∈ (Digraph.mk ["A", "B"] [("A", "B")]).edges,
          List.Sublist [p.1, p.2] L) :=
  c3_topologicalSort_correct (by decide)

/--
C5: `topologicalSort` is non-destructive: for every graph — whether a
cycle is detected or a full order is returned — the call completes and
the post-call graph (returned here explicitly, since mutation is modelled
by state passing) has exactly the edge arrays of the pre-call graph: the
snapshot taken at entry is restored before returning.
-/
theorem c5_topologicalSort_nondestructive (g : Digraph) :
    ∃ L, topologicalSort g = some (L, g) :=
  topologicalSort_total g

/--
C6 counterexample: on the chain A→B→C with state assignment A = FAIL,
B = C = NOT_READY and topoOrder [A, B, C], one `updateStates` marks only B
FAIL (C's parent B was NOT_READY in the snapshot), while a second
`updateStates` additionally marks C FAIL: running propagation twice does
not equal running it once.
-/
theorem c6_counterexample :
    updateStates [("A", "B"), ("B", "C")] ["A", "B", "C"] ["A", "B", "C"]
        (updateStates [("A", "B"), ("B", "C")] ["A", "B", "C"] ["A", "B", "C"]
          [VState.FAIL, VState.NOT_READY, VState.NOT_READY]) ≠
      updateStates [("A", "B"), ("B", "C")] ["A", "B", "C"] ["A", "B", "C"]
        [VState.FAIL, VState.NOT_READY, VState.NOT_READY] := by
  decide

/--
C6 (amended): propagation is idempotent on every state assignment in
which no vertex is FAIL (for any valid topoOrder: duplicate-free, as long
as the vertex list and mentioning only vertices).  In general a second
run can differ, because a FAIL propagates only one level per call — see
the counterexample.
-/
theorem c6_propagation_idempotent_noFail {E : List (String × String)}
    {ids topo : List String} {sts : List VState}
    (hndIds : ids.Nodup) (hndT : topo.Nodup) (hsub : ∀ v ∈ topo, v ∈ ids)
    (hlenT : topo.length = ids.length) (hlenS : sts.length = ids.length)
    (hnoFail : ∀ v ∈ ids, stateAt ids sts v ≠ VState.FAIL) :
    updateStates E ids topo (updateStates E ids topo sts) =
      updateStates E ids topo sts :=
  updateStates_idem_of_noFail hndIds hndT hsub hlenT hlenS hnoFail

theorem c6_witness :
    updateStates [("A", "B"), ("B", "C")] ["A", "B", "C"] ["A", "B", "C"]
        (updateStates [("A", "B"), ("B", "C")] ["A", "B", "C"] ["A", "B", "C"]
          [VState.SUCCESS, VState.NOT_READY, VState.NOT_READY]) =
      updateStates [("A", "B"), ("B", "C")] ["A", "B", "C"] ["A", "B", "C"]
        [VState.SUCCESS, VState.NOT_READY, VState.NOT_READY] :=
  c6_propagation_idempotent_noFail (by decide) (by decide) (by decide)
    (by decide) (by decide) (by decide)

/-! ## Claims C7, C8, C9 (code bugs) and C10 (frame of setState) -/

/--
C7: evaluation at the failing input.  Chain X→Y→Z with
`quitOnFailure = false`; `start` dispatches X; X reports FAIL.  The FAIL
branch of `setState` runs propagation (Y becomes FAIL, Z not yet), then
computes `allStatesFinal = false`, then runs propagation once more
(Z becomes FAIL) — but the final check re-uses the stale flag, so the
terminal callback never fires although now every vertex is final and
failed.  The claim says the callback fires with a FailedStates error; the
code leaves the campaign without any callback.
-/
theorem c7_fail_branch_stale_flags :
    (runCompletions
        (startPK false 1
          { vertexIds := ["X", "Y", "Z"], edges := [("X", "Y"), ("Y", "Z")] })
        [("X", VState.FAIL)]).map
      (fun pk' => (pk'.callbackTrace, pk'.terminalFired, pk'.states)) =
      some ([], false, [VState.FAIL, VState.FAIL, VState.FAIL]) := by
  decide

/--
C8: evaluation at the failing input.  Adding the fresh vertex "A" to the
empty graph succeeds, but the subsequent `removeVertex "A"` throws before
touching anything (digraph.js line 113 calls the non-existent array
method `index`), so the vertex is never removed and the counts are not
restored; the unreachable body of `removeVertex` (second conjunct) would
have restored them.
-/
theorem c8_removeVertex_throws :
    (addVertex { vertexIds := [], edges := [] } "A").bind
        (fun g' => removeVertex g' "A") = none ∧
      removeVertexBody { vertexIds := ["A"], edges := [] } "A" =
        { vertexIds := [], edges := [] } := by
  decide

/-- The round trip the specification states, provable for the unreachable
body of `removeVertex`: adding a fresh vertex and removing it restores
the vertex and edge arrays exactly (and, in general, `removeVertexBody`
drops every edge incident to the removed vertex). -/
lemma removeVertexBody_roundtrip {g g' : Digraph} {id : String}
    (hedges : ∀ p ∈ g.edges, p.1 ∈ g.vertexIds ∧ p.2 ∈ g.vertexIds)
    (hadd : addVertex g id = some g') : removeVertexBody g' id = g := by
  unfold addVertex at hadd
  by_cases hid : id ∈ g.vertexIds
  · rw [if_pos hid] at hadd; cases hadd
  · rw [if_neg hid] at hadd
    have hg' := Option.some.inj hadd
    subst hg'
    unfold removeVertexBody
    have h1 : (g.vertexIds ++ [id]).filter (fun v => v ≠ id) = g.vertexIds := by
      rw [List.filter_append]
      have h2 : g.vertexIds.filter (fun v => v ≠ id) = g.vertexIds :=
        List.filter_eq_self.mpr (fun v hv => by
          simp only [decide_eq_true_eq]
          exact fun hc => hid (hc ▸ hv))
      have h3 : ([id].filter (fun v => v ≠ id)) = [] := by simp
      rw [h2, h3, List.append_nil]
    have h4 : g.edges.filter (fun p => p.1 ≠ id ∧ p.2 ≠ id) = g.edges :=
      List.filter_eq_self.mpr (fun p hp => by
        simp only [decide_eq_true_eq]
        obtain ⟨hp1, hp2⟩ := hedges p hp
        exact ⟨fun hc => hid (hc ▸ hp1), fun hc => hid (hc ▸ hp2)⟩)
    simp only [h1, h4]

/--
C9: evaluation at the failing input.  A vertex "A" and its service each
start with data payload 0; the service emits "success" with payload 7.
Because Node's `EventEmitter` invokes the once-subscribed listener
(pigeonkeeper.js line 90) with `this` bound to the emitter — the service —
the `this.data = data` of `processSuccessful` writes the **service**
object: the vertex's data field stays 0 while the scheduler is asked to
move "A" to SUCCESS.  The claim says the payload is recorded into the
vertex's data field.
-/
theorem c9_success_payload_misses_vertex :
    emitSuccess { vertexData := 0, serviceData := 0 } "A" 7 =
      ({ vertexData := 0, serviceData := 7 },
        SchedReq.reqSetState "A" VState.SUCCESS) := by
  decide

/--
C10: for an existing vertex id and a new state in {NOT_READY, READY},
`PigeonKeeper.setState` changes only that vertex's state: `inFlight`,
`running`, `terminalFired`, the callback trace, the edge set, the
topological order and every other vertex's state are unchanged; no
propagation or dispatch runs and the terminal callback is not invoked.
-/
theorem c10_setState_frame {pk : PK} {vertexId : String} {newState : VState}
    (hv : vertexId ∈ pk.vertexIds) (hnd : pk.vertexIds.Nodup)
    (hlen : pk.states.length = pk.vertexIds.length)
    (hs : newState = VState.NOT_READY ∨ newState = VState.READY) :
    ∃ pk', setState pk vertexId newState = some pk' ∧
      stateAt pk'.vertexIds pk'.states vertexId = newState ∧
      (∀ w, w ≠ vertexId →
        stateAt pk'.vertexIds pk'.states w =
          stateAt pk.vertexIds pk.states w) ∧
      pk'.vertexIds = pk.vertexIds ∧ pk'.edges = pk.edges ∧
      pk'.topo = pk.topo ∧ pk'.running = pk.running ∧
      pk'.quitOnFailure = pk.quitOnFailure ∧ pk'.maxConc = pk.maxConc ∧
      pk'.inFlight = pk.inFlight ∧ pk'.terminalFired = pk.terminalFired ∧
      pk'.callbackTrace = pk.callbackTrace := by
  refine ⟨{ pk with states := setKey pk.vertexIds pk.states vertexId newState },
    ?_, ?_, ?_, rfl, rfl, rfl, rfl, rfl, rfl, rfl, rfl, rfl⟩
  · unfold setState
    rcases hs with h | h <;> subst h <;> rw [if_pos hv] <;> rfl
  · exact stateAt_setKey_self hv hlen newState
  · intro w hw
    exact stateAt_setKey_other hnd hlen hw newState

theorem c10_witness :
    ∃ pk', setState
        (PK.mk ["A", "B"] [("A", "B")] [VState.READY, VState.NOT_READY]
          ["A", "B"] true false 1 0 false []) "A" VState.READY = some pk' ∧
      pk'.inFlight = 0 ∧ pk'.callbackTrace = [] := by
  obtain ⟨pk', h1, _, _, _, _, _, _, _, _, hfl, _, htr⟩ :=
    @c10_setState_frame
      (PK.mk ["A", "B"] [("A", "B")] [VState.READY, VState.NOT_READY]
        ["A", "B"] true false 1 0 false []) "A" VState.READY
      (by decide) (by decide) (by decide) (Or.inr rfl)
  exact ⟨pk', h1, by rw [hfl], by rw [htr]⟩

/-! ## Claim C1: the terminal callback fires at most once per campaign -/

lemma fireFinalCallback_traceInv {pk : PK} (h : TraceInv pk) (e : CbArg) :
    TraceInv (fireFinalCallback pk e) := by
  unfold fireFinalCallback
  by_cases hf : pk.terminalFired
  · rw [if_pos hf]; exact h
  · rw [if_neg hf]
    have ht : pk.callbackTrace = [] := h.1 (by simpa using hf)
    constructor
    · intro hc
      simp at hc
    · simp [ht]

lemma traceInv_of_eq {pk1 pk2 : PK} (hf : pk1.terminalFired = pk2.terminalFired)
    (ht : pk1.callbackTrace = pk2.callbackTrace) (h : TraceInv pk2) :
    TraceInv pk1 := by
  unfold TraceInv at h ⊢
  rw [hf, ht]
  exact h

lemma setState_traceInv {pk pk' : PK} {v : String} {s : VState}
    (hinv : TraceInv pk) (h : setState pk v s = some pk') : TraceInv pk' := by
  unfold setState at h
  by_cases hv : v ∈ pk.vertexIds
  · rw [if_pos hv] at h
    by_cases hS : s = SUCCESS
    · rw [if_pos hS] at h
      have h' := Option.some.inj h
      subst h'
      split
      · split
        · apply fireFinalCallback_traceInv
          exact traceInv_of_eq rfl rfl hinv
        · apply fireFinalCallback_traceInv
          exact traceInv_of_eq rfl rfl hinv
      · split
        · apply fireFinalCallback_traceInv
          exact traceInv_of_eq rfl rfl hinv
        · split
          · split
            · apply fireFinalCallback_traceInv
              exact traceInv_of_eq rfl rfl hinv
            · exact traceInv_of_eq rfl rfl hinv
          · exact traceInv_of_eq rfl rfl hinv
    · rw [if_neg hS] at h
      by_cases hF : s = FAIL
      · rw [if_pos hF] at h
        have h' := Option.some.inj h
        subst h'
        split
        · apply fireFinalCallback_traceInv
          exact traceInv_of_eq rfl rfl hinv
        · split
          · apply fireFinalCallback_traceInv
            exact traceInv_of_eq rfl rfl hinv
          · exact traceInv_of_eq rfl rfl hinv
      · rw [if_neg hF] at h
        have h' := Option.some.inj h
        subst h'
        exact traceInv_of_eq rfl rfl hinv
  · rw [if_neg hv] at h
    cases h

lemma runSetStates_traceInv :
    ∀ (es : List (String × VState)) (pk0 pk1 : PK), TraceInv pk0 →
      runSetStates pk0 es = some pk1 → TraceInv pk1 := by
  intro es
  induction es with
  | nil =>
    intro pk0 pk1 hi hr
    have h' := Option.some.inj hr
    subst h'
    exact hi
  | cons e rest ih =>
    intro pk0 pk1 hi hr
    simp only [runSetStates] at hr
    cases hst : setState pk0 e.1 e.2 with
    | none => rw [hst] at hr; cases hr
    | some pkm =>
      rw [hst] at hr
      simp only [Option.some_bind] at hr
      exact ih _ _ (setState_traceInv hi hst) hr

/--
C1: for every campaign — a `start` followed by any number of SUCCESS or
FAIL transitions delivered through the public `setState`, for any
vertices and in any order — the terminal callback `finalCallback` is
invoked at most once: the campaign's callback trace never exceeds one
entry, and it is empty whenever the guard flag `finalCallbackExecuted` is
still clear (the flag is checked before, and set with, every invocation).
-/
theorem c1_terminal_at_most_once {q : Bool} {mc : Int} {g : Digraph}
    {es : List (String × VState)} {pk' : PK}
    (h : runSetStates (startPK q mc g) es = some pk') :
    pk'.callbackTrace.length ≤ 1 ∧
      (pk'.terminalFired = false → pk'.callbackTrace = []) := by
  have h0 : TraceInv (startPK q mc g) := by
    constructor
    · intro _; rfl
    · show ([] : List CbArg).length ≤ 1
      simp
  have hfin := runSetStates_traceInv es _ _ h0 h
  exact ⟨hfin.2, hfin.1⟩

theorem c1_witness :
    ∃ pk', runSetStates (startPK false 0 { vertexIds := ["A"], edges := [] })
        [("A", VState.SUCCESS)] = some pk' ∧
      pk'.callbackTrace.length ≤ 1 ∧
      (pk'.terminalFired = false → pk'.callbackTrace = []) := by
  have hr : (runSetStates (startPK false 0 { vertexIds := ["A"], edges := [] })
      [("A", VState.SUCCESS)]).isSome = true := by decide
  obtain ⟨pk', hpk⟩ := Option.isSome_iff_exists.mp hr
  exact ⟨pk', hpk, c1_terminal_at_most_once hpk⟩

/-! ## Claim C4: the concurrency cap bounds inFlight -/

lemma countIP_replicate (n : Nat) :
    countIP (List.replicate n VState.NOT_READY) = 0 := by
  induction n with
  | zero => rfl
  | succ n ih =>
    rw [List.replicate_succ]
    unfold countIP at ih ⊢
    rw [List.countP_cons]
    simp [ih]

lemma countIP_setNth {sts : List VState} {i : Nat} (h : i < sts.length)
    (x : VState) :
    countIP (setNth sts i x) +
        (if nthD sts i = VState.IN_PROGRESS then 1 else 0) =
      countIP sts + (if x = VState.IN_PROGRESS then 1 else 0) := by
  induction sts generalizing i with
  | nil => cases h
  | cons a rest ih =>
    cases i with
    | zero =>
      show countIP (x :: rest) + _ = countIP (a :: rest) + _
      unfold countIP
      rw [List.countP_cons, List.countP_cons]
      by_cases hx : x = VState.IN_PROGRESS <;>
        by_cases ha : a = VState.IN_PROGRESS <;>
          simp [hx, ha, nthD] <;> omega
    | succ i =>
      have hi : i < rest.length := Nat.lt_of_succ_lt_succ h
      have := ih hi
      show countIP (a :: setNth rest i x) + _ = countIP (a :: rest) + _
      unfold countIP at this ⊢
      rw [List.countP_cons, List.countP_cons]
      show _ + (if nthD rest i = VState.IN_PROGRESS then 1 else 0) = _
      omega

lemma countIP_setKey (ids : List String) (sts : List VState) (v : String)
    (x : VState) (hv : v ∈ ids) (hlen : sts.length = ids.length) :
    countIP (setKey ids sts v x) +
        (if stateAt ids sts v = VState.IN_PROGRESS then 1 else 0) =
      countIP sts + (if x = VState.IN_PROGRESS then 1 else 0) := by
  unfold setKey stateAt
  exact countIP_setNth (by rw [hlen]; exact idxOf_lt_length hv) x

lemma countP_congr_IP :
    ∀ {s1 s2 : List VState}, s1.length = s2.length →
      (∀ i (h1 : i < s1.length) (h2 : i < s2.length),
        (s1[i] = VState.IN_PROGRESS ↔ s2[i] = VState.IN_PROGRESS)) →
      countIP s1 = countIP s2 := by
  intro s1
  induction s1 with
  | nil =>
    intro s2 hlen _
    have : s2 = [] := List.length_eq_zero.mp (by rw [← hlen]; rfl)
    subst this; rfl
  | cons a rest ih =>
    intro s2 hlen hpt
    cases s2 with
    | nil => cases hlen
    | cons b rest2 =>
      have hlen' : rest.length = rest2.length := by
        simpa using hlen
      have hab := hpt 0 (by simp) (by simp)
      simp only [List.getElem_cons_zero] at hab
      have hrest := ih hlen' (fun i h1 h2 => by
        have := hpt (i + 1) (by simpa using Nat.succ_lt_succ h1)
          (by simpa using Nat.succ_lt_succ h2)
        simpa using this)
      unfold countIP at hrest ⊢
      rw [List.countP_cons, List.countP_cons, hrest]
      by_cases hb : b = VState.IN_PROGRESS
      · simp [hb, hab.mpr hb]
      · have ha : ¬ a = VState.IN_PROGRESS := fun hc => hb (hab.mp hc)
        simp [hb, ha]

lemma computeNewState_IP_iff (E : List (String × String)) (ids : List String)
    (sts : List VState) (v : String) :
    (computeNewState E ids sts v = VState.IN_PROGRESS ↔
      stateAt ids sts v = VState.IN_PROGRESS) := by
  unfold computeNewState
  by_cases h : stateAt ids sts v = NOT_READY
  · rw [if_pos h, h]
    constructor
    · intro hc
      by_cases h0 : indegree E v = 0
      · rw [if_pos h0] at hc; cases hc
      · rw [if_neg h0] at hc
        by_cases hall : ∀ p ∈ parentIds E v, stateAt ids sts p = SUCCESS
        · rw [if_pos hall] at hc; cases hc
        · rw [if_neg hall] at hc
          by_cases hex : ∃ p ∈ parentIds E v, stateAt ids sts p = FAIL
          · rw [if_pos hex] at hc; cases hc
          · rw [if_neg hex] at hc; cases hc
    · intro hc; cases hc
  · rw [if_neg h]

lemma updateStates_countIP {E : List (String × String)} {ids topo : List String}
    {sts : List VState} (hndIds : ids.Nodup) (hndT : topo.Nodup)
    (hsub : ∀ v ∈ topo, v ∈ ids) (hlenT : topo.length = ids.length)
    (hlenS : sts.length = ids.length) :
    countIP (updateStates E ids topo sts) = countIP sts := by
  have hlenU : (updateStates E ids topo sts).length = sts.length :=
    updateStates_length E ids topo sts
  apply countP_congr_IP hlenU
  intro i h1 h2
  have hi : i < ids.length := by rw [← hlenS]; exact h2
  have hvt : ids[i] ∈ topo :=
    (topo_perm hndT hsub hlenT).mem_iff.mpr (List.getElem_mem hi)
  have hu : stateAt ids (updateStates E ids topo sts) ids[i] =
      (updateStates E ids topo sts)[i] := by
    unfold stateAt
    rw [idxOf_getElem hndIds i hi, nthD_eq_getElem h1]
  have hs : stateAt ids sts ids[i] = sts[i] := by
    unfold stateAt
    rw [idxOf_getElem hndIds i hi, nthD_eq_getElem h2]
  rw [← hu, ← hs, updateStates_stateAt hndIds hndT hsub hlenT hlenS hvt]
  exact computeNewState_IP_iff E ids sts ids[i]

lemma schedInv_congr {mc : Int} {pk1 pk2 : PK} (h : SchedInv mc pk2)
    (hids : pk1.vertexIds = pk2.vertexIds) (hto : pk1.topo = pk2.topo)
    (hst : pk1.states = pk2.states) (hfl : pk1.inFlight = pk2.inFlight)
    (hmc : pk1.maxConc = pk2.maxConc) : SchedInv mc pk1 := by
  refine ⟨?_, ?_, ?_, ?_, ?_, ?_, ?_, ?_⟩
  · rw [hids]; exact h.ndIds
  · rw [hto]; exact h.ndT
  · rw [hto, hids]; exact h.subT
  · rw [hto, hids]; exact h.lenT
  · rw [hst, hids]; exact h.lenS
  · rw [hfl, hst]; exact h.count
  · rw [hmc, hfl]; exact h.cap
  · rw [hmc]; exact h.mcv

lemma fireFinalCallback_schedInv {mc : Int} {pk : PK} (h : SchedInv mc pk)
    (e : CbArg) : SchedInv mc (fireFinalCallback pk e) := by
  unfold fireFinalCallback
  split
  · exact h
  · exact schedInv_congr h rfl rfl rfl rfl rfl

lemma pkUpdateStates_schedInv {mc : Int} {pk : PK} (h : SchedInv mc pk) :
    SchedInv mc (pkUpdateStates pk) := by
  refine ⟨h.ndIds, h.ndT, h.subT, h.lenT, ?_, ?_, h.cap, h.mcv⟩
  · show (updateStates pk.edges pk.vertexIds pk.topo pk.states).length =
      pk.vertexIds.length
    rw [updateStates_length]
    exact h.lenS
  · show pk.inFlight =
      (countIP (updateStates pk.edges pk.vertexIds pk.topo pk.states) : Int)
    rw [updateStates_countIP h.ndIds h.ndT h.subT h.lenT h.lenS]
    exact h.count

lemma startReady_fold_inv (ids : List String) (mc : Int) :
    ∀ (l : List String) (sts : List VState) (fl : Int),
      (∀ v ∈ l, v ∈ ids) → sts.length = ids.length →
      fl = (countIP sts : Int) → (0 < mc → fl ≤ mc) →
      (l.foldl (fun (acc : List VState × Int) v =>
        if stateAt ids acc.1 v = VState.READY then
          if mc > 0 ∧ acc.2 < mc then
            (setKey ids acc.1 v VState.IN_PROGRESS, acc.2 + 1)
          else if mc ≤ 0 then
            (setKey ids acc.1 v VState.IN_PROGRESS, acc.2 + 1)
          else acc
        else acc) (sts, fl)).1.length = ids.length ∧
      (l.foldl (fun (acc : List VState × Int) v =>
        if stateAt ids acc.1 v = VState.READY then
          if mc > 0 ∧ acc.2 < mc then
            (setKey ids acc.1 v VState.IN_PROGRESS, acc.2 + 1)
          else if mc ≤ 0 then
            (setKey ids acc.1 v VState.IN_PROGRESS, acc.2 + 1)
          else acc
        else acc) (sts, fl)).2 =
        (countIP (l.foldl (fun (acc : List VState × Int) v =>
          if stateAt ids acc.1 v = VState.READY then
            if mc > 0 ∧ acc.2 < mc then
              (setKey ids acc.1 v VState.IN_PROGRESS, acc.2 + 1)
            else if mc ≤ 0 then
              (setKey ids acc.1 v VState.IN_PROGRESS, acc.2 + 1)
            else acc
          else acc) (sts, fl)).1 : Int) ∧
      (0 < mc → (l.foldl (fun (acc : List VState × Int) v =>
        if stateAt ids acc.1 v = VState.READY then
          if mc > 0 ∧ acc.2 < mc then
            (setKey ids acc.1 v VState.IN_PROGRESS, acc.2 + 1)
          else if mc ≤ 0 then
            (setKey ids acc.1 v VState.IN_PROGRESS, acc.2 + 1)
          else acc
        else acc) (sts, fl)).2 ≤ mc) := by
  intro l
  induction l with
  | nil =>
    intro sts fl _ hlen hcnt hcap
    exact ⟨hlen, hcnt, hcap⟩
  | cons v rest ih =>
    intro sts fl hsub hlen hcnt hcap
    have hvids : v ∈ ids := hsub v (List.mem_cons_self _ _)
    have hsub' : ∀ w ∈ rest, w ∈ ids :=
      fun w hw => hsub w (List.mem_cons_of_mem _ hw)
    simp only [List.foldl_cons]
    by_cases hR : stateAt ids sts v = VState.READY
    · rw [if_pos hR]
      have hinc : countIP (setKey ids sts v VState.IN_PROGRESS) =
          countIP sts + 1 := by
        have := countIP_setKey ids sts v VState.IN_PROGRESS hvids hlen
        rw [hR] at this
        simp at this
        omega
      by_cases hc1 : mc > 0 ∧ fl < mc
      · rw [if_pos hc1]
        apply ih _ _ hsub' (by rw [length_setKey]; exact hlen)
        · rw [hinc, hcnt]
          push_cast
          ring
        · intro _
          omega
      · rw [if_neg hc1]
        by_cases hc2 : mc ≤ 0
        · rw [if_pos hc2]
          apply ih _ _ hsub' (by rw [length_setKey]; exact hlen)
          · rw [hinc, hcnt]
            push_cast
            ring
          · intro hpos
            omega
        · rw [if_neg hc2]
          exact ih _ _ hsub' hlen hcnt hcap
    · rw [if_neg hR]
      exact ih _ _ hsub' hlen hcnt hcap

lemma pkStartReady_schedInv {mc : Int} {pk : PK} (h : SchedInv mc pk) :
    SchedInv mc (pkStartReady pk) := by
  obtain ⟨hlen, hcnt, hcap⟩ :=
    startReady_fold_inv pk.vertexIds pk.maxConc pk.vertexIds pk.states
      pk.inFlight (fun v hv => hv) h.lenS h.count h.cap
  exact ⟨h.ndIds, h.ndT, h.subT, h.lenT, hlen, hcnt,
    fun hpos => hcap hpos, h.mcv⟩

lemma setState_schedInv {mc : Int} {pk pk' : PK} {v : String} {s : VState}
    (hinv : SchedInv mc pk)
    (hIP : stateAt pk.vertexIds pk.states v = VState.IN_PROGRESS)
    (hsf : s = VState.SUCCESS ∨ s = VState.FAIL)
    (h : setState pk v s = some pk') : SchedInv mc pk' := by
  have hvmem : v ∈ pk.vertexIds := by
    by_contra hc
    rw [stateAt_not_mem hc hinv.lenS] at hIP
    cases hIP
  have hsIP : ¬ s = VState.IN_PROGRESS := by
    rcases hsf with h1 | h1 <;> subst h1 <;> simp
  have hcnt1 : countIP (setKey pk.vertexIds pk.states v s) + 1 =
      countIP pk.states := by
    have hck := countIP_setKey pk.vertexIds pk.states v s hvmem hinv.lenS
    rw [hIP, if_pos rfl, if_neg hsIP] at hck
    omega
  have hmid : SchedInv mc (pkUpdateStates
      { pk with states := setKey pk.vertexIds pk.states v s,
                inFlight := pk.inFlight - 1 }) := by
    apply pkUpdateStates_schedInv
    refine ⟨hinv.ndIds, hinv.ndT, hinv.subT, hinv.lenT, ?_, ?_, ?_, hinv.mcv⟩
    · show (setKey pk.vertexIds pk.states v s).length = pk.vertexIds.length
      rw [length_setKey]
      exact hinv.lenS
    · show pk.inFlight - 1 =
        (countIP (setKey pk.vertexIds pk.states v s) : Int)
      have hc := hinv.count
      omega
    · intro hmc0
      show pk.inFlight - 1 ≤ pk.maxConc
      have := hinv.cap hmc0
      omega
  unfold setState at h
  rw [if_pos hvmem] at h
  by_cases hS : s = SUCCESS
  · rw [if_pos hS] at h
    have h' := Option.some.inj h
    subst h'
    split
    · split
      · apply fireFinalCallback_schedInv
        exact schedInv_congr hmid rfl rfl rfl rfl rfl
      · apply fireFinalCallback_schedInv
        exact schedInv_congr hmid rfl rfl rfl rfl rfl
    · split
      · apply fireFinalCallback_schedInv
        exact schedInv_congr hmid rfl rfl rfl rfl rfl
      · split
        · split
          · apply fireFinalCallback_schedInv
            exact schedInv_congr hmid rfl rfl rfl rfl rfl
          · apply pkUpdateStates_schedInv
            exact schedInv_congr hmid rfl rfl rfl rfl rfl
        · apply pkStartReady_schedInv
          exact schedInv_congr hmid rfl rfl rfl rfl rfl
  · rw [if_neg hS] at h
    by_cases hF : s = FAIL
    · rw [if_pos hF] at h
      have h' := Option.some.inj h
      subst h'
      split
      · apply fireFinalCallback_schedInv
        exact schedInv_congr hmid rfl rfl rfl rfl rfl
      · split
        · apply fireFinalCallback_schedInv
          apply pkUpdateStates_schedInv
          exact schedInv_congr hmid rfl rfl rfl rfl rfl
        · apply pkUpdateStates_schedInv
          exact schedInv_congr hmid rfl rfl rfl rfl rfl
    · exact absurd hsf (by simp [hS, hF])

lemma runCompletions_schedInv {mc : Int} :
    ∀ (es : List (String × VState)) (pk0 pk1 : PK), SchedInv mc pk0 →
      runCompletions pk0 es = some pk1 → SchedInv mc pk1 := by
  intro es
  induction es with
  | nil =>
    intro pk0 pk1 hi hr
    have h' := Option.some.inj hr
    subst h'
    exact hi
  | cons e rest ih =>
    intro pk0 pk1 hi hr
    simp only [runCompletions] at hr
    split at hr
    · rename_i hcond
      cases hst : setState pk0 e.1 e.2 with
      | none => rw [hst] at hr; cases hr
      | some pkm =>
        rw [hst] at hr
        simp only [Option.some_bind] at hr
        exact ih _ _ (setState_schedInv hi hcond.2 hcond.1 hst) hr
    · cases hr

lemma startPK_schedInv {q : Bool} {mc : Int} {g : Digraph} (hwf : WF g)
    (hnc : ¬ hasCycle g.edges) : SchedInv mc (startPK q mc g) := by
  obtain ⟨L, hts, _, hac⟩ := topologicalSort_spec hwf
  obtain ⟨hnd, hmem, _⟩ := hac hnc
  have htopo : ((topologicalSort g).map (fun r => r.1)).getD [] = L := by
    rw [hts]
    rfl
  have hperm : List.Perm L g.vertexIds :=
    (List.perm_ext_iff_of_nodup hnd hwf.1).mpr hmem
  apply pkStartReady_schedInv
  apply pkUpdateStates_schedInv
  refine ⟨hwf.1, ?_, ?_, ?_, ?_, ?_, ?_, rfl⟩
  · show (((topologicalSort g).map (fun r => r.1)).getD []).Nodup
    rw [htopo]
    exact hnd
  · show ∀ v ∈ ((topologicalSort g).map (fun r => r.1)).getD [], v ∈ g.vertexIds
    rw [htopo]
    intro v hv
    exact (hmem v).mp hv
  · show (((topologicalSort g).map (fun r => r.1)).getD []).length =
      g.vertexIds.length
    rw [htopo]
    exact hperm.length_eq
  · show (List.replicate g.vertexIds.length VState.NOT_READY).length =
      g.vertexIds.length
    simp
  · show (0 : Int) =
      (countIP (List.replicate g.vertexIds.length VState.NOT_READY) : Int)
    rw [countIP_replicate]
    rfl
  · intro hm
    have hm' : (0 : Int) < mc := hm
    show (0 : Int) ≤ mc
    omega

/--
C4: whenever `maxConcurrent > 0`, the invariant
`0 ≤ inFlight ≤ maxConcurrent` holds at every observable point of a
campaign driven only through the public interface — a `start` on a
well-formed acyclic graph followed by any sequence of task-completion
events (SUCCESS/FAIL transitions of vertices that are IN_PROGRESS when
delivered): dispatch never increments `numberOfRunningProcesses` past the
cap, and each SUCCESS/FAIL commit decrements it exactly once, keeping it
equal to the number of IN_PROGRESS vertices.
-/
theorem c4_inflight_bounds {q : Bool} {mc : Int} {g : Digraph}
    {es : List (String × VState)} {pk' : PK}
    (hwf : WF g) (hnc : ¬ hasCycle g.edges) (hmc : 0 < mc)
    (h : runCompletions (startPK q mc g) es = some pk') :
    0 ≤ pk'.inFlight ∧ pk'.inFlight ≤ mc := by
  have hinv := runCompletions_schedInv es _ _ (startPK_schedInv hwf hnc) h
  constructor
  · rw [hinv.count]
    exact Int.ofNat_nonneg _
  · have h2 := hinv.cap (by rw [hinv.mcv]; exact hmc)
    rw [hinv.mcv] at h2
    exact h2

/-- A graph without edges has no cycle (used to discharge the acyclicity
hypothesis on concrete inputs). -/
lemma not_hasCycle_nil : ¬ hasCycle ([] : List (String × String)) := by
  intro hc
  obtain ⟨v, hv⟩ := hc
  have haux : ∀ a b : String,
      Relation.TransGen (edgeRel ([] : List (String × String))) a b → False := by
    intro a b hab
    induction hab with
    | single h1 => cases h1
    | tail _ h1 _ => cases h1
  exact haux v v hv

theorem c4_witness :
    ∃ pk', runCompletions
        (startPK false 1 { vertexIds := ["A", "B"], edges := [] })
        [("A", VState.SUCCESS)] = some pk' ∧
      0 ≤ pk'.inFlight ∧ pk'.inFlight ≤ 1 := by
  have hr : (runCompletions
      (startPK false 1 { vertexIds := ["A", "B"], edges := [] })
      [("A", VState.SUCCESS)]).isSome = true := by decide
  obtain ⟨pk', hpk⟩ := Option.isSome_iff_exists.mp hr
  exact ⟨pk', hpk,
    c4_inflight_bounds (by decide) not_hasCycle_nil (by decide) hpk⟩

end Pigeon

